import Mathlib

/-!
Shallow embedding of `src/extendible_hash_table.cpp` (an extendible hash
table with a directory of shared bucket handles).

Modelling choices:
* Keys and values are `Nat`; the C++ code is generic in `K`, `V` with
  `std::hash<K>`, so the hash is an arbitrary function `hash : Nat → Nat`
  passed to every operation.
* `std::shared_ptr<Bucket>` identity is modelled by an arena: the table
  carries a list `buckets : List Bucket`, and the directory `dir_` stores
  indices into that arena.  Pointer equality `dir_[i] == bucket` becomes
  equality of arena indices.  Buckets that become unreferenced simply stay
  in the arena (they are never consulted again).
* `ExtendibleHashTable::Insert` is a `while` loop with no bound; it is
  embedded with explicit fuel, returning `none` when the fuel runs out.
* Machine integers are modelled as `Nat`; the source masks with
  `(1 << depth) - 1`, kept literally as `(1 <<< depth) - 1` and `&&&`.
* The constructor-initialised fields `global_depth_ = 0` and
  `num_buckets_ = 1` live in the repository's header (not under `src/`);
  they are modelled from the spec ("the table is created with one bucket
  of depth 0 covering the single directory slot").
-/

namespace ExtHash

/-- A bucket: fixed capacity `size_`, local depth `depth_`, and the entry
list `list_` (a `std::list<std::pair<K, V>>` in the source). -/
structure Bucket where
  size_ : Nat
  depth_ : Nat
  list_ : List (Nat × Nat)
deriving Repr, DecidableEq

instance : Inhabited Bucket := ⟨⟨0, 0, []⟩⟩

namespace Bucket

/-- Modelled from the spec: `IsFull` is declared in the repository's header
(not under `src/`); per the spec a bucket rejects an insert exactly when
`entries.length == capacity`. -/
def isFull (b : Bucket) : Bool := b.list_.length == b.size_

/-- The scan loop of `Bucket::Find`: walk `list_`, and on the first entry
whose key matches, write its value into the by-reference output parameter
and return `true`; otherwise leave the output parameter untouched. -/
def findAux : List (Nat × Nat) → Nat → Nat → Bool × Nat
  | [], _, value => (false, value)
  | kv :: rest, key, value =>
      if kv.1 == key then (true, kv.2) else findAux rest key value

/-- `Bucket::Find(key, value)`: returns the `bool` result together with the
final contents of the output parameter `value`. -/
def find (b : Bucket) (key value : Nat) : Bool × Nat := findAux b.list_ key value

/-- The scan loop of `Bucket::Remove`: erase the first entry with a
matching key and return `true`, else return `false` with the list intact. -/
def removeAux : List (Nat × Nat) → Nat → Bool × List (Nat × Nat)
  | [], _ => (false, [])
  | kv :: rest, key =>
      if kv.1 == key then (true, rest)
      else
        let r := removeAux rest key
        (r.1, kv :: r.2)

/-- `Bucket::Remove(key)`. -/
def remove (b : Bucket) (key : Nat) : Bool × Bucket :=
  let r := removeAux b.list_ key
  (r.1, { b with list_ := r.2 })

/-- The first scan loop of `Bucket::Insert`: if some entry has a matching
key, overwrite its value in place (`it->second = value`) and report the
updated list; otherwise report `none`. -/
def insertScan : List (Nat × Nat) → Nat → Nat → Option (List (Nat × Nat))
  | [], _, _ => none
  | kv :: rest, key, value =>
      if kv.1 == key then some ((kv.1, value) :: rest)
      else (insertScan rest key value).map (kv :: ·)

/-- `Bucket::Insert(key, value)`: overwrite in place on a key hit; else
reject when full; else `emplace_back`. -/
def insert (b : Bucket) (key value : Nat) : Bool × Bucket :=
  match insertScan b.list_ key value with
  | some l => (true, { b with list_ := l })
  | none =>
      if b.isFull then (false, b)
      else (true, { b with list_ := b.list_ ++ [(key, value)] })

end Bucket

/-- The table: global depth, per-bucket capacity, bucket counter, the
directory of arena indices, and the bucket arena. -/
structure ExtendibleHashTable where
  global_depth_ : Nat
  bucket_size_ : Nat
  num_buckets_ : Nat
  dir_ : List Nat
  buckets : List Bucket
deriving Repr, DecidableEq

namespace ExtendibleHashTable

/-- The constructor: one bucket of depth 0 in the single directory slot;
`global_depth_ = 0` and `num_buckets_ = 1` are the header's initialisers
(modelled from the spec's lifecycle paragraph). -/
def new (bucket_size : Nat) : ExtendibleHashTable :=
  ⟨0, bucket_size, 1, [0], [⟨bucket_size, 0, []⟩]⟩

/-- Dereference an arena index (a `shared_ptr` in the source). -/
def bucketAt (t : ExtendibleHashTable) (bid : Nat) : Bucket :=
  t.buckets.getD bid default

/-- `IndexOf`: `std::hash<K>()(key) & ((1 << global_depth_) - 1)`. -/
def IndexOf (hash : Nat → Nat) (t : ExtendibleHashTable) (key : Nat) : Nat :=
  hash key &&& ((1 <<< t.global_depth_) - 1)

/-- `GetGlobalDepth`. -/
def GetGlobalDepth (t : ExtendibleHashTable) : Nat := t.global_depth_

/-- `GetNumBuckets`. -/
def GetNumBuckets (t : ExtendibleHashTable) : Nat := t.num_buckets_

/-- `GetLocalDepthInternal(dir_index)`: `dir_[dir_index]->GetDepth()`
(only meaningful for an in-range index). -/
def GetLocalDepthInternal (t : ExtendibleHashTable) (dir_index : Nat) : Nat :=
  (t.bucketAt (t.dir_.getD dir_index 0)).depth_

/-- Modelled from the spec: `localDepth(index)` "fails if index out of
directory bounds" with the `InvalidIndex` error.  The source's
`GetLocalDepth` performs an unchecked `dir_[dir_index]` access (undefined
behaviour out of range); the bounds check below is the spec's required
behaviour, which is missing from the code. -/
def GetLocalDepthChecked (t : ExtendibleHashTable) (dir_index : Int) : Option Nat :=
  if 0 ≤ dir_index ∧ dir_index < t.dir_.length then
    some (t.GetLocalDepthInternal dir_index.toNat)
  else none

/-- `ExtendibleHashTable::Find(key, value)`: address the bucket through the
directory and delegate; returns the `bool` and the final contents of the
output parameter. -/
def Find (hash : Nat → Nat) (t : ExtendibleHashTable) (key value : Nat) : Bool × Nat :=
  let index := IndexOf hash t key
  (t.bucketAt (t.dir_.getD index 0)).find key value

/-- `ExtendibleHashTable::Remove(key)`: the `bool` result and the updated
table (the addressed bucket is mutated through its shared handle). -/
def Remove (hash : Nat → Nat) (t : ExtendibleHashTable) (key : Nat) :
    Bool × ExtendibleHashTable :=
  let index := IndexOf hash t key
  let bid := t.dir_.getD index 0
  let r := (t.bucketAt bid).remove key
  (r.1, { t with buckets := t.buckets.set bid r.2 })

/-- `DoubleDirectory`: resize to twice the size and copy slot `i` into slot
`i + old_size`. -/
def DoubleDirectory (t : ExtendibleHashTable) : ExtendibleHashTable :=
  { t with dir_ := t.dir_ ++ t.dir_ }

/-- The directory-reassignment loop of `SplitBucket`: slot `i` holding the
split bucket goes to `lo` (the source's `new_bucket`) when
`(i & step1) != step`, to `hi` (`new_bucket2`) when `(i & step1) == step`;
other slots are untouched.  The counter argument is the loop index. -/
def reassign (bid lo hi step1 step : Nat) : Nat → List Nat → List Nat
  | _, [] => []
  | i, c :: rest =>
      (if c = bid then (if (i &&& step1) != step then lo else hi) else c)
        :: reassign bid lo hi step1 step (i + 1) rest

/-- The item-redistribution loop of `SplitBucket`: each old entry is
re-inserted into `new_bucket` (`lo`) when `(step1 & hash) != step`, else
into `new_bucket2` (`hi`); the `bool` result of `Insert` is discarded, as
in the source. -/
def redistribute (hash : Nat → Nat) (step1 step : Nat) :
    List (Nat × Nat) → Bucket → Bucket → Bucket × Bucket
  | [], lo, hi => (lo, hi)
  | kv :: rest, lo, hi =>
      if (step1 &&& hash kv.1) != step then
        redistribute hash step1 step rest (lo.insert kv.1 kv.2).2 hi
      else
        redistribute hash step1 step rest lo (hi.insert kv.1 kv.2).2

/-- `SplitBucket(key)`: re-address the key, increment the addressed
bucket's depth (through the shared handle), create two fresh buckets of
that depth, reassign the directory slots, bump the bucket counter, and
redistribute the old entries.  The fresh buckets get the next two arena
indices (`new_bucket` first). -/
def SplitBucket (hash : Nat → Nat) (t : ExtendibleHashTable) (key : Nat) :
    ExtendibleHashTable :=
  let index := IndexOf hash t key
  let bid := t.dir_.getD index 0
  let bucket1 : Bucket :=
    { t.bucketAt bid with depth_ := (t.bucketAt bid).depth_ + 1 }
  let lo := t.buckets.length
  let hi := t.buckets.length + 1
  let step1 := (1 <<< bucket1.depth_) - 1
  let step := step1 &&& index
  let dir2 := reassign bid lo hi step1 step 0 t.dir_
  let nb := redistribute hash step1 step bucket1.list_
      ⟨t.bucket_size_, bucket1.depth_, []⟩ ⟨t.bucket_size_, bucket1.depth_, []⟩
  { t with dir_ := dir2,
           num_buckets_ := t.num_buckets_ + 1,
           buckets := (t.buckets.set bid bucket1) ++ [nb.1, nb.2] }

/-- One failed iteration of the `while` loop in `Insert`: grow the
directory when the addressed bucket's local depth equals the global depth,
then split the addressed bucket. -/
def insertStep (hash : Nat → Nat) (t : ExtendibleHashTable) (key : Nat) :
    ExtendibleHashTable :=
  let bid := t.dir_.getD (IndexOf hash t key) 0
  let t1 :=
    if t.global_depth_ == (t.bucketAt bid).depth_ then
      DoubleDirectory { t with global_depth_ := t.global_depth_ + 1 }
    else t
  SplitBucket hash t1 key

/-- `ExtendibleHashTable::Insert(key, value)`: retry the bucket insert,
growing and splitting after each rejection.  The source's loop has no
bound, so the embedding takes fuel and returns `none` when it is spent. -/
def Insert (hash : Nat → Nat) :
    Nat → ExtendibleHashTable → Nat → Nat → Option ExtendibleHashTable
  | 0, _, _, _ => none
  | fuel + 1, t, key, value =>
      let bid := t.dir_.getD (IndexOf hash t key) 0
      let r := (t.bucketAt bid).insert key value
      if r.1 then some { t with buckets := t.buckets.set bid r.2 }
      else Insert hash fuel (insertStep hash t key) key value

/-- The states reachable from construction by completed public mutating
operations (an `Insert` is completed when some fuel suffices). -/
inductive Reachable (hash : Nat → Nat) : ExtendibleHashTable → Prop
  | con (bucket_size : Nat) : Reachable hash (new bucket_size)
  | ins {t t' : ExtendibleHashTable} (key value fuel : Nat) :
      Reachable hash t → Insert hash fuel t key value = some t' → Reachable hash t'
  | rem {t : ExtendibleHashTable} (key : Nat) :
      Reachable hash t → Reachable hash (Remove hash t key).2

/-- The structural invariant of the table.  `cover` packages the directory
invariants: each referenced bucket `bid` has a local depth at most the
global depth and an address prefix `p` such that the slots referencing it
are exactly those whose index has low bits `p`, and every key it stores
hashes to that prefix. -/
structure Inv (hash : Nat → Nat) (t : ExtendibleHashTable) : Prop where
  dirlen : t.dir_.length = 2 ^ t.global_depth_
  inrange : ∀ bid ∈ t.dir_, bid < t.buckets.length
  cover : ∀ bid ∈ t.dir_, ∃ p < 2 ^ (t.bucketAt bid).depth_,
      (t.bucketAt bid).depth_ ≤ t.global_depth_ ∧
      (∀ j < t.dir_.length,
        (t.dir_.getD j 0 = bid ↔ j % 2 ^ (t.bucketAt bid).depth_ = p)) ∧
      (∀ a ∈ (t.bucketAt bid).list_.map Prod.fst,
        hash a % 2 ^ (t.bucketAt bid).depth_ = p)
  keysnd : ∀ bid ∈ t.dir_, ((t.bucketAt bid).list_.map Prod.fst).Nodup
  caps : ∀ bid ∈ t.dir_, (t.bucketAt bid).list_.length ≤ t.bucket_size_
  sizes : ∀ bid ∈ t.dir_, (t.bucketAt bid).size_ = t.bucket_size_

/-- A hash function on which all keys collide on every bit (the degenerate
clustering scenario of the spec). -/
def clusterHash : Nat → Nat := fun _ => 0

/-- The table of capacity 1 obtained by inserting key 0 (value 0) into a
fresh table, under `clusterHash`. -/
def clusterT1 : ExtendibleHashTable := ⟨0, 1, 1, [0], [⟨1, 0, [(0, 0)]⟩]⟩

/-- The state a failing `Insert` under `clusterHash` keeps revisiting:
capacity 1, and directory slot 0 (the slot every key addresses under
`clusterHash`) holds a full bucket with the single entry `(0, 0)` whose
local depth equals the global depth. -/
def Clustered (t : ExtendibleHashTable) : Prop :=
  t.bucket_size_ = 1 ∧ 0 < t.dir_.length ∧
    t.bucketAt (t.dir_.getD 0 0) = ⟨1, t.global_depth_, [(0, 0)]⟩

/-- Concrete states used in witnesses, under the identity hash: a
capacity-2 table after inserting (0, 100), then (1, 101), then (2, 102),
then (3, 103). -/
def exampleT1 : ExtendibleHashTable := ⟨0, 2, 1, [0], [⟨2, 0, [(0, 100)]⟩]⟩

/-- The state after also inserting (1, 101). -/
def exampleT2 : ExtendibleHashTable := ⟨0, 2, 1, [0], [⟨2, 0, [(0, 100), (1, 101)]⟩]⟩

/-- The state after also inserting (2, 102): the first split happened. -/
def exampleT3 : ExtendibleHashTable :=
  ⟨1, 2, 2, [2, 1],
    [⟨2, 1, [(0, 100), (1, 101)]⟩, ⟨2, 1, [(1, 101)]⟩,
      ⟨2, 1, [(0, 100), (2, 102)]⟩]⟩

/-- The state after also inserting (3, 103). -/
def exampleT4 : ExtendibleHashTable :=
  ⟨1, 2, 2, [2, 1],
    [⟨2, 1, [(0, 100), (1, 101)]⟩, ⟨2, 1, [(1, 101), (3, 103)]⟩,
      ⟨2, 1, [(0, 100), (2, 102)]⟩]⟩

/-- A table whose single bucket is full, used to witness the split claim. -/
def exampleFull : ExtendibleHashTable := ⟨1, 2, 1, [0, 0], [⟨2, 0, [(0, 5), (1, 6)]⟩]⟩

/-- A full capacity-1 table holding key 5, used to witness the update claim. -/
def exampleSmall : ExtendibleHashTable := ⟨0, 1, 1, [0], [⟨1, 0, [(5, 9)]⟩]⟩

end ExtendibleHashTable

/-! Arithmetic and generic list lemmas. -/

theorem mask_eq_mod (x d : Nat) : x &&& ((1 <<< d) - 1) = x % 2 ^ d := by
  rw [Nat.shiftLeft_eq, one_mul]
  exact Nat.and_pow_two_sub_one_eq_mod x d

theorem mod_pow_mod {j d e : Nat} (h : d ≤ e) : j % 2 ^ e % 2 ^ d = j % 2 ^ d :=
  Nat.mod_mod_of_dvd j (pow_dvd_pow 2 h)

theorem two_residues {e p r : Nat} (hp : p < 2 ^ e) (hr : r < 2 ^ (e + 1))
    (hmod : r % 2 ^ e = p) : r = p ∨ r = p + 2 ^ e := by
  have hpos : 0 < 2 ^ e := Nat.pos_pow_of_pos e (by omega)
  have hdm := Nat.div_add_mod r (2 ^ e)
  have hlt : r / 2 ^ e < 2 := by
    have : r < 2 ^ e * 2 := by
      have : 2 ^ (e + 1) = 2 ^ e * 2 := by rw [pow_succ]
      omega
    exact Nat.div_lt_of_lt_mul this
  interval_cases h : r / 2 ^ e <;> omega

theorem getD_mem {l : List Nat} {j : Nat} (h : j < l.length) : l.getD j 0 ∈ l := by
  rw [List.getD_eq_getElem l 0 h]
  exact List.getElem_mem h

theorem mem_iff_getD {l : List Nat} {a : Nat} :
    a ∈ l ↔ ∃ j, j < l.length ∧ l.getD j 0 = a := by
  constructor
  · intro h
    obtain ⟨i, hi, he⟩ := List.mem_iff_getElem.mp h
    exact ⟨i, hi, by rw [List.getD_eq_getElem l 0 hi]; exact he⟩
  · rintro ⟨j, hj, rfl⟩
    exact getD_mem hj

theorem getD_set_self {l : List Bucket} {i : Nat} (h : i < l.length) (b : Bucket) :
    (l.set i b).getD i default = b := by
  simp [List.getD, List.getElem?_set_self, h]

theorem getD_set_ne {l : List Bucket} {i j : Nat} (h : i ≠ j) (b : Bucket) :
    (l.set i b).getD j default = l.getD j default := by
  simp [List.getD, List.getElem?_set_ne h]

theorem set_getD_self {l : List Bucket} {i : Nat} (h : i < l.length) :
    l.set i (l.getD i default) = l := by
  induction l generalizing i with
  | nil => simp at h
  | cons x xs ih =>
      cases i with
      | zero => simp [List.getD]
      | succ i =>
          simp only [List.length_cons, Nat.succ_lt_succ_iff] at h
          simp [List.getD] at ih ⊢
          exact ih h

theorem getD_append_self {l : List Nat} {j : Nat}
    (h : j < 2 * l.length) : (l ++ l).getD j 0 = l.getD (j % l.length) 0 := by
  rcases Nat.lt_or_ge j l.length with hj | hj
  · rw [List.getD_append l l 0 j hj, Nat.mod_eq_of_lt hj]
  · rw [List.getD_append_right l l 0 j hj]
    congr 1
    rw [Nat.mod_eq_sub_mod hj, Nat.mod_eq_of_lt (by omega)]

theorem count_range_self {p : Nat} :
    ∀ {n : Nat}, p < n → (List.range n).countP (fun j => j % n == p) = 1 := by
  intro n hp
  have h1 : ∀ j ∈ List.range n,
      ((fun j => j % n == p) j = true ↔ ((j : Nat) == p) = true) := by
    intro j hj
    simp only [List.mem_range] at hj
    simp [Nat.mod_eq_of_lt hj]
  rw [List.countP_congr h1, ← List.count_eq_countP]
  exact List.count_eq_one_of_mem (List.nodup_range n) (List.mem_range.mpr hp)

theorem countP_range_mul {n p : Nat} (hp : p < n) :
    ∀ m, (List.range (n * m)).countP (fun j => j % n == p) = m := by
  intro m
  induction m with
  | zero => simp
  | succ m ih =>
      have hnm : n * (m + 1) = n * m + n := by ring
      rw [hnm, List.range_add, List.countP_append, ih, List.countP_map]
      have h2 : ∀ j ∈ List.range n,
          (((fun j => j % n == p) ∘ (fun x => n * m + x)) j = true
            ↔ (fun j => j % n == p) j = true) := by
        intro j hj
        have hmm : (n * m + j) % n = j % n := by
          rw [Nat.mul_comm n m, Nat.add_comm, Nat.add_mul_mod_self_right]
        simp [hmm]
      rw [List.countP_congr h2, count_range_self hp]

theorem countP_range_mod_pow {d g p : Nat} (hd : d ≤ g) (hp : p < 2 ^ d) :
    (List.range (2 ^ g)).countP (fun j => j % 2 ^ d == p) = 2 ^ (g - d) := by
  have h : 2 ^ g = 2 ^ d * 2 ^ (g - d) := by
    rw [← pow_add]
    congr 1
    omega
  rw [h]
  exact countP_range_mul hp (2 ^ (g - d))

theorem count_eq_countP_getD (l : List Nat) (a : Nat) :
    l.count a = (List.range l.length).countP (fun i => l.getD i 0 == a) := by
  induction l with
  | nil => simp
  | cons x xs ih =>
      rw [List.length_cons, List.range_succ_eq_map, List.countP_cons, List.countP_map,
        List.count_cons, ih]
      have h : ∀ i ∈ List.range xs.length,
          (((fun i => (x :: xs).getD i 0 == a) ∘ Nat.succ) i = true
            ↔ (fun i => xs.getD i 0 == a) i = true) := by
        intro i _
        simp [List.getD]
      rw [List.countP_congr h]
      simp [List.getD, Nat.add_comm, BEq.comm]

/-! Lemmas about the bucket operations. -/

namespace Bucket

theorem findAux_false_of_not_mem {l : List (Nat × Nat)} {k : Nat}
    (h : ∀ kv ∈ l, kv.1 ≠ k) (v : Nat) : findAux l k v = (false, v) := by
  induction l with
  | nil => rfl
  | cons kv rest ih =>
      have h1 : kv.1 ≠ k := h kv (by simp)
      simp only [findAux, beq_iff_eq, if_neg h1]
      exact ih fun kv' hm => h kv' (by simp [hm])

theorem not_mem_of_findAux_false {l : List (Nat × Nat)} {k v : Nat}
    (h : (findAux l k v).1 = false) : ∀ kv ∈ l, kv.1 ≠ k := by
  induction l with
  | nil => simp
  | cons kv rest ih =>
      intro kv' hm
      by_cases he : kv.1 = k
      · rw [show findAux (kv :: rest) k v = (true, kv.2) by
          simp [findAux, he]] at h
        simp at h
      · simp only [findAux, beq_iff_eq, if_neg he] at h
        rcases List.mem_cons.mp hm with rfl | hm'
        · exact he
        · exact ih h kv' hm'

theorem findAux_mem {l : List (Nat × Nat)} {k v : Nat}
    (h : (findAux l k v).1 = true) : (k, (findAux l k v).2) ∈ l := by
  induction l with
  | nil => simp [findAux] at h
  | cons kv rest ih =>
      by_cases he : kv.1 = k
      · have hv : findAux (kv :: rest) k v = (true, kv.2) := by
          simp [findAux, he]
        rw [hv]
        exact List.mem_cons.mpr (Or.inl (by rw [← he]))
      · simp only [findAux, beq_iff_eq, if_neg he] at h ⊢
        exact List.mem_cons_of_mem _ (ih h)

theorem findAux_of_mem {l : List (Nat × Nat)} {k w : Nat}
    (hm : (k, w) ∈ l) (hnd : (l.map Prod.fst).Nodup) (v : Nat) :
    findAux l k v = (true, w) := by
  induction l with
  | nil => simp at hm
  | cons kv rest ih =>
      simp only [List.map_cons, List.nodup_cons] at hnd
      rcases List.mem_cons.mp hm with he | hm'
      · rw [← he]
        simp [findAux]
      · have hne : kv.1 ≠ k := by
          intro hk
          exact hnd.1 (hk ▸ (List.mem_map.mpr ⟨(k, w), hm', rfl⟩))
        simp only [findAux, beq_iff_eq, if_neg hne]
        exact ih hm' hnd.2

theorem findAux_false_snd {l : List (Nat × Nat)} {k v : Nat}
    (h : (findAux l k v).1 = false) : findAux l k v = (false, v) :=
  findAux_false_of_not_mem (not_mem_of_findAux_false h) v

theorem insertScan_none_iff {l : List (Nat × Nat)} {k v : Nat} :
    insertScan l k v = none ↔ ∀ kv ∈ l, kv.1 ≠ k := by
  induction l with
  | nil => simp [insertScan]
  | cons kv rest ih =>
      by_cases he : kv.1 = k
      · simp [insertScan, he]
      · simp only [insertScan, beq_iff_eq, if_neg he, Option.map_eq_none', ih]
        constructor
        · intro h kv' hm
          rcases List.mem_cons.mp hm with rfl | hm'
          · exact he
          · exact h kv' hm'
        · intro h kv' hm'
          exact h kv' (List.mem_cons_of_mem _ hm')

theorem insertScan_map_fst {l : List (Nat × Nat)} {k v : Nat} {l' : List (Nat × Nat)}
    (h : insertScan l k v = some l') : l'.map Prod.fst = l.map Prod.fst := by
  induction l generalizing l' with
  | nil => simp [insertScan] at h
  | cons kv rest ih =>
      by_cases he : kv.1 = k
      · simp only [insertScan, beq_iff_eq, if_pos he, Option.some.injEq] at h
        subst h
        simp
      · simp only [insertScan, beq_iff_eq, if_neg he, Option.map_eq_some'] at h
        obtain ⟨l'', h1, rfl⟩ := h
        simp [ih h1]

theorem findAux_insertScan_self {l : List (Nat × Nat)} {k v : Nat} {l' : List (Nat × Nat)}
    (h : insertScan l k v = some l') (v0 : Nat) : findAux l' k v0 = (true, v) := by
  induction l generalizing l' with
  | nil => simp [insertScan] at h
  | cons kv rest ih =>
      by_cases he : kv.1 = k
      · simp only [insertScan, beq_iff_eq, if_pos he, Option.some.injEq] at h
        subst h
        simp [findAux, he]
      · simp only [insertScan, beq_iff_eq, if_neg he, Option.map_eq_some'] at h
        obtain ⟨l'', h1, rfl⟩ := h
        simp only [findAux, beq_iff_eq, if_neg he]
        exact ih h1

theorem findAux_insertScan_other {l : List (Nat × Nat)} {k v : Nat} {l' : List (Nat × Nat)}
    {k1 : Nat} (h : insertScan l k v = some l') (hne : k1 ≠ k) (v0 : Nat) :
    findAux l' k1 v0 = findAux l k1 v0 := by
  induction l generalizing l' with
  | nil => simp [insertScan] at h
  | cons kv rest ih =>
      by_cases he : kv.1 = k
      · simp only [insertScan, beq_iff_eq, if_pos he, Option.some.injEq] at h
        subst h
        have hne2 : kv.1 ≠ k1 := fun hk => hne (hk.symm.trans he)
        simp [findAux, hne2]
      · simp only [insertScan, beq_iff_eq, if_neg he, Option.map_eq_some'] at h
        obtain ⟨l'', h1, rfl⟩ := h
        simp only [findAux]
        rcases Decidable.em (kv.1 = k1) with h2 | h2 <;> simp [h2, ih h1]

theorem removeAux_of_not_mem {l : List (Nat × Nat)} {k : Nat}
    (h : ∀ kv ∈ l, kv.1 ≠ k) : removeAux l k = (false, l) := by
  induction l with
  | nil => rfl
  | cons kv rest ih =>
      have h1 : kv.1 ≠ k := h kv (by simp)
      have h2 := ih fun kv' hm => h kv' (by simp [hm])
      simp [removeAux, h1, h2]

theorem removeAux_map_fst_sublist (l : List (Nat × Nat)) (k : Nat) :
    ((removeAux l k).2.map Prod.fst).Sublist (l.map Prod.fst) := by
  induction l with
  | nil => simp [removeAux]
  | cons kv rest ih =>
      by_cases he : kv.1 = k
      · simp only [removeAux, beq_iff_eq, if_pos he, List.map_cons]
        exact List.sublist_cons_of_sublist _ (List.Sublist.refl _)
      · simp only [removeAux, beq_iff_eq, if_neg he, List.map_cons]
        exact ih.cons₂ kv.1

theorem removeAux_true_of_findAux {l : List (Nat × Nat)} {k v : Nat}
    (h : (findAux l k v).1 = true) : (removeAux l k).1 = true := by
  induction l with
  | nil => simp [findAux] at h
  | cons kv rest ih =>
      by_cases he : kv.1 = k
      · simp [removeAux, he]
      · simp only [findAux, beq_iff_eq, if_neg he] at h
        simp only [removeAux, beq_iff_eq, if_neg he]
        exact ih h

theorem removeAux_not_mem_self {l : List (Nat × Nat)} {k : Nat}
    (hnd : (l.map Prod.fst).Nodup) : ∀ kv ∈ (removeAux l k).2, kv.1 ≠ k := by
  induction l with
  | nil => simp [removeAux]
  | cons kv rest ih =>
      simp only [List.map_cons, List.nodup_cons] at hnd
      by_cases he : kv.1 = k
      · simp only [removeAux, beq_iff_eq, if_pos he]
        intro kv' hm' hk
        exact hnd.1 (he ▸ hk ▸ List.mem_map.mpr ⟨kv', hm', rfl⟩)
      · simp only [removeAux, beq_iff_eq, if_neg he]
        intro kv' hm'
        rcases List.mem_cons.mp hm' with rfl | hm''
        · exact he
        · exact ih hnd.2 kv' hm''

theorem removeAux_length_le (l : List (Nat × Nat)) (k : Nat) :
    (removeAux l k).2.length ≤ l.length := by
  have := (removeAux_map_fst_sublist l k).length_le
  simpa using this

/-- Outcome equation: a key hit overwrites in place. -/
theorem insert_eq_overwrite {b : Bucket} {k v : Nat} {l' : List (Nat × Nat)}
    (hscan : insertScan b.list_ k v = some l') :
    b.insert k v = (true, { b with list_ := l' }) := by
  simp only [insert, hscan]

/-- Outcome equation: no key hit and the bucket is full. -/
theorem insert_eq_reject {b : Bucket} {k v : Nat}
    (hscan : insertScan b.list_ k v = none) (hfull : b.isFull = true) :
    b.insert k v = (false, b) := by
  simp only [insert, hscan, hfull, if_true]

/-- Outcome equation: no key hit and room left. -/
theorem insert_eq_append {b : Bucket} {k v : Nat}
    (hscan : insertScan b.list_ k v = none) (hfull : b.isFull = false) :
    b.insert k v = (true, { b with list_ := b.list_ ++ [(k, v)] }) := by
  simp only [insert, hscan, hfull, Bool.false_eq_true, if_false]

theorem insert_depth_size (b : Bucket) (k v : Nat) :
    (b.insert k v).2.depth_ = b.depth_ ∧ (b.insert k v).2.size_ = b.size_ := by
  cases hscan : insertScan b.list_ k v with
  | some l' => rw [insert_eq_overwrite hscan]; exact ⟨rfl, rfl⟩
  | none =>
      cases hfull : b.isFull with
      | true => rw [insert_eq_reject hscan hfull]; exact ⟨rfl, rfl⟩
      | false => rw [insert_eq_append hscan hfull]; exact ⟨rfl, rfl⟩

theorem insert_false_eq {b : Bucket} {k v : Nat}
    (h : (b.insert k v).1 = false) : b.insert k v = (false, b) := by
  cases hscan : insertScan b.list_ k v with
  | some l' => rw [insert_eq_overwrite hscan] at h ⊢; simp at h
  | none =>
      cases hfull : b.isFull with
      | true => exact insert_eq_reject hscan hfull
      | false => rw [insert_eq_append hscan hfull] at h ⊢; simp at h

/-- On success, either the keys are unchanged (overwrite) or the fresh key
is appended (in which case the bucket had room). -/
theorem insert_true_keys {b : Bucket} {k v : Nat}
    (h : (b.insert k v).1 = true) :
    (b.insert k v).2.list_.map Prod.fst = b.list_.map Prod.fst ∨
      ((b.insert k v).2.list_ = b.list_ ++ [(k, v)] ∧
        k ∉ b.list_.map Prod.fst ∧ b.isFull = false) := by
  cases hscan : insertScan b.list_ k v with
  | some l' =>
      rw [insert_eq_overwrite hscan]
      exact Or.inl (insertScan_map_fst hscan)
  | none =>
      cases hfull : b.isFull with
      | true => rw [insert_eq_reject hscan hfull] at h; simp at h
      | false =>
          rw [insert_eq_append hscan hfull]
          refine Or.inr ⟨rfl, ?_, rfl⟩
          intro hk
          obtain ⟨kv, hm, he⟩ := List.mem_map.mp hk
          exact insertScan_none_iff.mp hscan kv hm he

theorem findAux_append_fresh {l : List (Nat × Nat)} {k : Nat}
    (hnm : ∀ kv ∈ l, kv.1 ≠ k) (v v0 : Nat) :
    findAux (l ++ [(k, v)]) k v0 = (true, v) := by
  induction l with
  | nil => simp [findAux]
  | cons kv rest ih =>
      have h1 : kv.1 ≠ k := hnm kv (by simp)
      simp only [List.cons_append, findAux, beq_iff_eq, if_neg h1]
      exact ih fun kv' hm => hnm kv' (by simp [hm])

theorem findAux_append_other {l : List (Nat × Nat)} {kv2 : Nat × Nat} {k1 : Nat}
    (hne : k1 ≠ kv2.1) (v0 : Nat) :
    findAux (l ++ [kv2]) k1 v0 = findAux l k1 v0 := by
  induction l with
  | nil =>
      have h2 : kv2.1 ≠ k1 := fun h => hne h.symm
      simp [findAux, h2]
  | cons kv rest ih =>
      simp only [List.cons_append, findAux]
      rcases Decidable.em (kv.1 = k1) with h2 | h2 <;> simp [h2, ih]

theorem insert_true_find {b : Bucket} {k v : Nat}
    (h : (b.insert k v).1 = true) (v0 : Nat) :
    (b.insert k v).2.find k v0 = (true, v) := by
  cases hscan : insertScan b.list_ k v with
  | some l' =>
      rw [insert_eq_overwrite hscan]
      exact findAux_insertScan_self hscan v0
  | none =>
      cases hfull : b.isFull with
      | true => rw [insert_eq_reject hscan hfull] at h; simp at h
      | false =>
          rw [insert_eq_append hscan hfull]
          exact findAux_append_fresh (insertScan_none_iff.mp hscan) v v0

theorem insert_true_find_other {b : Bucket} {k v k1 : Nat}
    (hne : k1 ≠ k) (v0 : Nat) :
    (b.insert k v).2.find k1 v0 = b.find k1 v0 := by
  cases hscan : insertScan b.list_ k v with
  | some l' =>
      rw [insert_eq_overwrite hscan]
      exact findAux_insertScan_other hscan hne v0
  | none =>
      cases hfull : b.isFull with
      | true => rw [insert_eq_reject hscan hfull]
      | false =>
          rw [insert_eq_append hscan hfull]
          exact findAux_append_other hne v0

theorem insert_length_le {b : Bucket} {k v : Nat} (hle : b.list_.length ≤ b.size_) :
    (b.insert k v).2.list_.length ≤ b.size_ := by
  cases hscan : insertScan b.list_ k v with
  | some l' =>
      rw [insert_eq_overwrite hscan]
      have := congrArg List.length (insertScan_map_fst hscan)
      simpa using le_of_eq_of_le (by simpa using this) hle
  | none =>
      cases hfull : b.isFull with
      | true => rw [insert_eq_reject hscan hfull]; exact hle
      | false =>
          rw [insert_eq_append hscan hfull]
          have hne : b.list_.length ≠ b.size_ := by
            intro h
            simp [isFull, h] at hfull
          simp only [List.length_append, List.length_cons, List.length_nil]
          omega

theorem insert_of_fresh_room {b : Bucket} {k v : Nat}
    (hnm : k ∉ b.list_.map Prod.fst) (hroom : b.list_.length < b.size_) :
    b.insert k v = (true, { b with list_ := b.list_ ++ [(k, v)] }) := by
  have hscan : insertScan b.list_ k v = none :=
    insertScan_none_iff.mpr fun kv hm he => hnm (List.mem_map.mpr ⟨kv, hm, he⟩)
  have hfull : b.isFull = false := by
    simp only [isFull, beq_eq_false_iff_ne, ne_eq]
    omega
  exact insert_eq_append hscan hfull

/-- Filtering out only entries whose key differs from the key being looked
up does not change the result of the lookup scan. -/
theorem findAux_filter_keep {P : Nat × Nat → Bool} {l : List (Nat × Nat)} {k1 : Nat}
    (hkeep : ∀ kv ∈ l, kv.1 = k1 → P kv = true) (v0 : Nat) :
    findAux (l.filter P) k1 v0 = findAux l k1 v0 := by
  induction l with
  | nil => rfl
  | cons kv rest ih =>
      have ih2 := ih fun kv' hm he => hkeep kv' (by simp [hm]) he
      by_cases hP : P kv = true
      · have hfc : (kv :: rest).filter P = kv :: rest.filter P := by
          simp [List.filter_cons, hP]
        rw [hfc]
        by_cases he : kv.1 = k1
        · simp [findAux, he]
        · simp only [findAux, beq_iff_eq, if_neg he]
          exact ih2
      · have hPf : P kv = false := by
          revert hP
          cases P kv <;> simp
        have hfc : (kv :: rest).filter P = rest.filter P := by
          simp [List.filter_cons, hPf]
        rw [hfc]
        have he : kv.1 ≠ k1 := fun h => hP (hkeep kv (by simp) h)
        rw [ih2]
        simp only [findAux, beq_iff_eq, if_neg he]

end Bucket

theorem mask_eq_mod' (d x : Nat) : ((1 <<< d) - 1) &&& x = x % 2 ^ d := by
  rw [Nat.land_comm]
  exact mask_eq_mod x d

namespace ExtendibleHashTable

theorem IndexOf_eq_mod (hash : Nat → Nat) (t : ExtendibleHashTable) (key : Nat) :
    IndexOf hash t key = hash key % 2 ^ t.global_depth_ :=
  mask_eq_mod (hash key) t.global_depth_

theorem getD_set_list {l : List Bucket} {i : Nat} (h : i < l.length) (b : Bucket)
    (c : Nat) : (l.set i b).getD c default = if c = i then b else l.getD c default := by
  by_cases hc : c = i
  · subst hc
    rw [if_pos rfl]
    exact getD_set_self h b
  · rw [getD_set_ne (fun he => hc he.symm) b, if_neg hc]

theorem getD_set_append {l : List Bucket} {bid : Nat} (hb : bid < l.length)
    (b1 x y : Bucket) (c : Nat) :
    ((l.set bid b1) ++ [x, y]).getD c default =
      if c = l.length then x
      else if c = l.length + 1 then y
      else if c = bid then b1
      else l.getD c default := by
  rcases Nat.lt_or_ge c l.length with hc | hc
  · rw [List.getD_append _ _ _ _ (by simpa using hc)]
    have h1 : c ≠ l.length := by omega
    have h2 : c ≠ l.length + 1 := by omega
    rw [if_neg h1, if_neg h2]
    exact getD_set_list hb b1 c
  · rw [List.getD_append_right _ _ _ _ (by simpa using hc)]
    have hlen : (l.set bid b1).length = l.length := by simp
    have hcb : c ≠ bid := by omega
    have hout : l.getD c default = default := List.getD_eq_default l default (by omega)
    rcases Nat.lt_or_ge c (l.length + 2) with hc2 | hc2
    · rcases Nat.eq_or_lt_of_le hc with he | hlt
      · rw [hlen, ← he]
        simp
      · have he1 : c = l.length + 1 := by omega
        rw [hlen, he1]
        simp
    · have h1 : c ≠ l.length := by omega
      have h2 : c ≠ l.length + 1 := by omega
      rw [hlen, if_neg h1, if_neg h2, if_neg hcb, hout]
      have : c - l.length ≥ 2 := by omega
      match c - l.length, this with
      | n + 2, _ => simp [List.getD]

theorem getD_set_append_fst (l : List Bucket) (i : Nat) (b1 x y : Bucket) :
    ((l.set i b1) ++ [x, y]).getD l.length default = x := by
  rw [List.getD_append_right _ _ _ _ (by simp)]
  simp [List.getD]

theorem getD_set_append_snd (l : List Bucket) (i : Nat) (b1 x y : Bucket) :
    ((l.set i b1) ++ [x, y]).getD (l.length + 1) default = y := by
  rw [List.getD_append_right _ _ _ _ (by simp)]
  simp [List.getD]

theorem reassign_length (bid lo hi s1 s : Nat) :
    ∀ (l : List Nat) (i : Nat), (reassign bid lo hi s1 s i l).length = l.length := by
  intro l
  induction l with
  | nil => intro i; rfl
  | cons c rest ih =>
      intro i
      simp only [reassign, List.length_cons, ih]

theorem reassign_getD (bid lo hi s1 s : Nat) :
    ∀ (l : List Nat) (i j : Nat), j < l.length →
      (reassign bid lo hi s1 s i l).getD j 0 =
        if l.getD j 0 = bid then (if ((i + j) &&& s1) != s then lo else hi)
        else l.getD j 0 := by
  intro l
  induction l with
  | nil => intro i j h; simp at h
  | cons c rest ih =>
      intro i j h
      cases j with
      | zero => simp [reassign, List.getD]
      | succ j =>
          simp only [List.length_cons, Nat.succ_lt_succ_iff] at h
          have hrec := ih (i + 1) j h
          simp only [reassign, List.getD_cons_succ]
          rw [hrec]
          have harith : i + 1 + j = i + (j + 1) := by omega
          rw [harith]

theorem redistribute_spec (hash : Nat → Nat) (s1 s : Nat) :
    ∀ (items : List (Nat × Nat)) (lo hi : Bucket),
      (items.map Prod.fst).Nodup →
      (∀ a ∈ items.map Prod.fst, a ∉ lo.list_.map Prod.fst) →
      (∀ a ∈ items.map Prod.fst, a ∉ hi.list_.map Prod.fst) →
      lo.list_.length + (items.filter fun kv => (s1 &&& hash kv.1) != s).length
        ≤ lo.size_ →
      hi.list_.length + (items.filter fun kv => (s1 &&& hash kv.1) == s).length
        ≤ hi.size_ →
      redistribute hash s1 s items lo hi =
        ({ lo with list_ :=
            lo.list_ ++ (items.filter fun kv => (s1 &&& hash kv.1) != s) },
         { hi with list_ :=
            hi.list_ ++ (items.filter fun kv => (s1 &&& hash kv.1) == s) }) := by
  intro items
  induction items with
  | nil =>
      intro lo hi _ _ _ _ _
      simp [redistribute]
  | cons kv rest ih =>
      intro lo hi hnd hflo hfhi hllo hlhi
      simp only [List.map_cons, List.nodup_cons] at hnd
      by_cases he : (s1 &&& hash kv.1) = s
      · have hfh : ((kv :: rest).filter fun kv => (s1 &&& hash kv.1) == s)
            = kv :: (rest.filter fun kv => (s1 &&& hash kv.1) == s) := by
          simp [List.filter_cons, he]
        have hfl : ((kv :: rest).filter fun kv => (s1 &&& hash kv.1) != s)
            = (rest.filter fun kv => (s1 &&& hash kv.1) != s) := by
          simp [List.filter_cons, he]
        rw [hfh] at hlhi
        rw [hfl] at hllo
        simp only [List.length_cons] at hlhi
        have hroom : hi.list_.length < hi.size_ := by omega
        have hfresh : kv.1 ∉ hi.list_.map Prod.fst := hfhi kv.1 (by simp)
        have hins := Bucket.insert_of_fresh_room (v := kv.2) hfresh hroom
        have hstep : redistribute hash s1 s (kv :: rest) lo hi
            = redistribute hash s1 s rest lo (hi.insert kv.1 kv.2).2 := by
          have hpredlo : ((s1 &&& hash kv.1) != s) = false := by simp [he]
          simp only [redistribute, hpredlo, Bool.false_eq_true, if_false]
        rw [hstep, hins]
        have hrec := ih lo { hi with list_ := hi.list_ ++ [(kv.1, kv.2)] }
          hnd.2 (fun a ha => hflo a (by simp [ha]))
          (fun a ha => by
            simp only [List.map_append, List.mem_append, List.map_cons, List.map_nil,
              List.mem_singleton]
            rintro (h1 | h2)
            · exact hfhi a (by simp [ha]) h1
            · exact hnd.1 (h2 ▸ ha))
          hllo
          (by simp only [List.length_append, List.length_cons, List.length_nil]; omega)
        rw [hrec, hfl, hfh]
        simp [Prod.mk.eta, List.append_assoc]
      · have hfl : ((kv :: rest).filter fun kv => (s1 &&& hash kv.1) != s)
            = kv :: (rest.filter fun kv => (s1 &&& hash kv.1) != s) := by
          simp [List.filter_cons, he]
        have hfh : ((kv :: rest).filter fun kv => (s1 &&& hash kv.1) == s)
            = (rest.filter fun kv => (s1 &&& hash kv.1) == s) := by
          simp [List.filter_cons, he]
        rw [hfl] at hllo
        rw [hfh] at hlhi
        simp only [List.length_cons] at hllo
        have hroom : lo.list_.length < lo.size_ := by omega
        have hfresh : kv.1 ∉ lo.list_.map Prod.fst := hflo kv.1 (by simp)
        have hins := Bucket.insert_of_fresh_room (v := kv.2) hfresh hroom
        have hstep : redistribute hash s1 s (kv :: rest) lo hi
            = redistribute hash s1 s rest (lo.insert kv.1 kv.2).2 hi := by
          have hpredlo : ((s1 &&& hash kv.1) != s) = true := by simp [he]
          simp only [redistribute, hpredlo, if_true]
        rw [hstep, hins]
        have hrec := ih { lo with list_ := lo.list_ ++ [(kv.1, kv.2)] } hi
          hnd.2
          (fun a ha => by
            simp only [List.map_append, List.mem_append, List.map_cons, List.map_nil,
              List.mem_singleton]
            rintro (h1 | h2)
            · exact hflo a (by simp [ha]) h1
            · exact hnd.1 (h2 ▸ ha))
          (fun a ha => hfhi a (by simp [ha]))
          (by simp only [List.length_append, List.length_cons, List.length_nil]; omega)
          hlhi
        rw [hrec, hfl, hfh]
        simp [Prod.mk.eta, List.append_assoc]

theorem if_bne {α : Sort _} (a b : Nat) (x y : α) :
    (if (a != b) = true then x else y) = if a = b then y else x := by
  by_cases h : a = b <;> simp [h]

/-! Preservation of the structural invariant. -/

theorem Inv.idx_lt {hash : Nat → Nat} {t : ExtendibleHashTable} (hI : Inv hash t)
    (key : Nat) : IndexOf hash t key < t.dir_.length := by
  rw [IndexOf_eq_mod, hI.dirlen]
  exact Nat.mod_lt _ (Nat.two_pow_pos _)

theorem Inv.bid_mem {hash : Nat → Nat} {t : ExtendibleHashTable} (hI : Inv hash t)
    (key : Nat) : t.dir_.getD (IndexOf hash t key) 0 ∈ t.dir_ :=
  getD_mem (hI.idx_lt key)

/-- The hash of an addressed key matches the address prefix of the bucket
it is routed to. -/
theorem Inv.key_prefix {hash : Nat → Nat} {t : ExtendibleHashTable} (hI : Inv hash t)
    {key p : Nat}
    (hiff : ∀ j < t.dir_.length,
      (t.dir_.getD j 0 = t.dir_.getD (IndexOf hash t key) 0 ↔
        j % 2 ^ (t.bucketAt (t.dir_.getD (IndexOf hash t key) 0)).depth_ = p))
    (hdle : (t.bucketAt (t.dir_.getD (IndexOf hash t key) 0)).depth_ ≤ t.global_depth_) :
    hash key % 2 ^ (t.bucketAt (t.dir_.getD (IndexOf hash t key) 0)).depth_ = p := by
  generalize hdd : (t.bucketAt (t.dir_.getD (IndexOf hash t key) 0)).depth_ = dd
    at hiff hdle ⊢
  have hidx := (hiff (IndexOf hash t key) (hI.idx_lt key)).mp rfl
  rw [IndexOf_eq_mod] at hidx
  rw [← mod_pow_mod hdle]
  exact hidx

/-- Replacing the bucket addressed by `key` with one of the same depth and
size whose keys come from the old bucket or are the addressed key itself
preserves the invariant. -/
theorem Inv.set_addressed {hash : Nat → Nat} {t : ExtendibleHashTable} {key : Nat}
    {b' : Bucket} (hI : Inv hash t)
    (hdep : b'.depth_ = (t.bucketAt (t.dir_.getD (IndexOf hash t key) 0)).depth_)
    (hsz : b'.size_ = (t.bucketAt (t.dir_.getD (IndexOf hash t key) 0)).size_)
    (hnd : (b'.list_.map Prod.fst).Nodup)
    (hlen : b'.list_.length ≤ t.bucket_size_)
    (hkeys : ∀ a ∈ b'.list_.map Prod.fst,
      a ∈ (t.bucketAt (t.dir_.getD (IndexOf hash t key) 0)).list_.map Prod.fst
        ∨ a = key) :
    Inv hash { t with buckets :=
        (t.buckets.set (t.dir_.getD (IndexOf hash t key) 0) b') } := by
  have hidxlt := hI.idx_lt key
  obtain ⟨p, hp, hdle, hiff, hplace⟩ := hI.cover _ (hI.bid_mem key)
  have hkey : hash key % 2 ^ (t.bucketAt (t.dir_.getD (IndexOf hash t key) 0)).depth_
      = p := hI.key_prefix hiff hdle
  have hmem0 : t.dir_.getD (IndexOf hash t key) 0 ∈ t.dir_ := hI.bid_mem key
  generalize hbid : t.dir_.getD (IndexOf hash t key) 0 = bid
    at hdep hsz hkeys hp hdle hiff hplace hkey hmem0 ⊢
  have hblt : bid < t.buckets.length := hI.inrange bid hmem0
  have hBA : ∀ c,
      ({ t with buckets := (t.buckets.set bid b') } : ExtendibleHashTable).bucketAt c
        = if c = bid then b' else t.bucketAt c := by
    intro c
    show (t.buckets.set bid b').getD c default = _
    exact getD_set_list hblt b' c
  constructor
  · exact hI.dirlen
  · intro c hc
    show c < (t.buckets.set bid b').length
    rw [List.length_set]
    exact hI.inrange c hc
  · intro c hc
    rw [hBA c]
    by_cases hcb : c = bid
    · rw [if_pos hcb]
      refine ⟨p, ?_, ?_, ?_, ?_⟩ <;> rw [hdep]
      · exact hp
      · exact hdle
      · intro j hj
        rw [hcb]
        exact hiff j hj
      · intro a ha
        rcases hkeys a ha with h1 | h2
        · exact hplace a h1
        · rw [h2]
          exact hkey
    · rw [if_neg hcb]
      exact hI.cover c hc
  · intro c hc
    rw [hBA c]
    by_cases hcb : c = bid
    · rw [if_pos hcb]
      exact hnd
    · rw [if_neg hcb]
      exact hI.keysnd c hc
  · intro c hc
    rw [hBA c]
    by_cases hcb : c = bid
    · rw [if_pos hcb]
      exact hlen
    · rw [if_neg hcb]
      exact hI.caps c hc
  · intro c hc
    rw [hBA c]
    by_cases hcb : c = bid
    · rw [if_pos hcb, hsz]
      exact hI.sizes bid hmem0
    · rw [if_neg hcb]
      exact hI.sizes c hc

theorem Inv.insert_success {hash : Nat → Nat} {t : ExtendibleHashTable}
    {key value : Nat}
    (hI : Inv hash t)
    (hr : ((t.bucketAt (t.dir_.getD (IndexOf hash t key) 0)).insert key value).1 = true) :
    Inv hash { t with buckets :=
        (t.buckets.set (t.dir_.getD (IndexOf hash t key) 0)
          ((t.bucketAt (t.dir_.getD (IndexOf hash t key) 0)).insert key value).2) } := by
  have hmem0 : t.dir_.getD (IndexOf hash t key) 0 ∈ t.dir_ := hI.bid_mem key
  have hds := Bucket.insert_depth_size (t.bucketAt (t.dir_.getD (IndexOf hash t key) 0))
    key value
  have hkeys := Bucket.insert_true_keys hr
  refine hI.set_addressed hds.1 hds.2 ?_ ?_ ?_
  · rcases hkeys with hsame | ⟨happ, hfresh, _⟩
    · rw [hsame]
      exact hI.keysnd _ hmem0
    · rw [happ]
      simp only [List.map_append, List.map_cons, List.map_nil]
      rw [List.nodup_append]
      refine ⟨hI.keysnd _ hmem0, List.nodup_singleton key, ?_⟩
      intro a ha hb2
      simp only [List.mem_singleton] at hb2
      exact hfresh (hb2 ▸ ha)
  · have hle : (t.bucketAt (t.dir_.getD (IndexOf hash t key) 0)).list_.length
        ≤ (t.bucketAt (t.dir_.getD (IndexOf hash t key) 0)).size_ := by
      rw [hI.sizes _ hmem0]
      exact hI.caps _ hmem0
    have h2 := Bucket.insert_length_le (k := key) (v := value) hle
    rw [hI.sizes _ hmem0] at h2
    exact h2
  · intro a ha
    rcases hkeys with hsame | ⟨happ, hfresh, _⟩
    · rw [hsame] at ha
      exact Or.inl ha
    · rw [happ] at ha
      simp only [List.map_append, List.mem_append, List.map_cons, List.map_nil,
        List.mem_singleton] at ha
      rcases ha with h1 | h2
      · exact Or.inl h1
      · exact Or.inr h2


theorem Inv.split_aux {hash : Nat → Nat} {t : ExtendibleHashTable}
    {idx bid dold s1 s : Nat}
    (hI : Inv hash t)
    (hidxlt : idx < t.dir_.length)
    (hbid : t.dir_.getD idx 0 = bid)
    (hdold : (t.bucketAt bid).depth_ = dold)
    (hd : dold < t.global_depth_)
    (hs1 : ∀ x : Nat, x &&& s1 = x % 2 ^ (dold + 1))
    (hs1h : ∀ x : Nat, s1 &&& x = x % 2 ^ (dold + 1))
    (hs : s = idx % 2 ^ (dold + 1)) :
    Inv hash
      { t with
        dir_ := reassign bid t.buckets.length (t.buckets.length + 1) s1 s 0 t.dir_,
        num_buckets_ := t.num_buckets_ + 1,
        buckets := ((t.buckets.set bid
            { t.bucketAt bid with depth_ := dold + 1 }) ++
          [(redistribute hash s1 s (t.bucketAt bid).list_
              ⟨t.bucket_size_, dold + 1, []⟩ ⟨t.bucket_size_, dold + 1, []⟩).1,
            (redistribute hash s1 s (t.bucketAt bid).list_
              ⟨t.bucket_size_, dold + 1, []⟩ ⟨t.bucket_size_, dold + 1, []⟩).2]) }
    ∧ ∀ k1 v0 : Nat, Find hash
      { t with
        dir_ := reassign bid t.buckets.length (t.buckets.length + 1) s1 s 0 t.dir_,
        num_buckets_ := t.num_buckets_ + 1,
        buckets := ((t.buckets.set bid
            { t.bucketAt bid with depth_ := dold + 1 }) ++
          [(redistribute hash s1 s (t.bucketAt bid).list_
              ⟨t.bucket_size_, dold + 1, []⟩ ⟨t.bucket_size_, dold + 1, []⟩).1,
            (redistribute hash s1 s (t.bucketAt bid).list_
              ⟨t.bucket_size_, dold + 1, []⟩ ⟨t.bucket_size_, dold + 1, []⟩).2]) }
      k1 v0 = Find hash t k1 v0 := by
  have hmem : bid ∈ t.dir_ := hbid ▸ getD_mem hidxlt
  have hblt : bid < t.buckets.length := hI.inrange bid hmem
  obtain ⟨p, hp, hdle, hiff, hplace⟩ := hI.cover bid hmem
  rw [hdold] at hp hiff hplace
  have hcap : (t.bucketAt bid).list_.length ≤ t.bucket_size_ := hI.caps bid hmem
  have hndb : ((t.bucketAt bid).list_.map Prod.fst).Nodup := hI.keysnd bid hmem
  have hdg : dold + 1 ≤ t.global_depth_ := hd
  have hp2 : (0:Nat) < 2 ^ dold := Nat.two_pow_pos dold
  have hd2 : (2:Nat) ^ (dold + 1) = 2 ^ dold * 2 := pow_succ 2 dold
  have hRD := redistribute_spec hash s1 s (t.bucketAt bid).list_
      ⟨t.bucket_size_, dold + 1, []⟩ ⟨t.bucket_size_, dold + 1, []⟩ hndb
      (by simp) (by simp)
      (by simpa using le_trans (List.length_filter_le _ _) hcap)
      (by simpa using le_trans (List.length_filter_le _ _) hcap)
  set T : ExtendibleHashTable :=
    { t with
      dir_ := reassign bid t.buckets.length (t.buckets.length + 1) s1 s 0 t.dir_,
      num_buckets_ := t.num_buckets_ + 1,
      buckets := ((t.buckets.set bid
          { t.bucketAt bid with depth_ := dold + 1 }) ++
        [(redistribute hash s1 s (t.bucketAt bid).list_
            ⟨t.bucket_size_, dold + 1, []⟩ ⟨t.bucket_size_, dold + 1, []⟩).1,
          (redistribute hash s1 s (t.bucketAt bid).list_
            ⟨t.bucket_size_, dold + 1, []⟩ ⟨t.bucket_size_, dold + 1, []⟩).2]) }
    with hT
  have hTg : T.global_depth_ = t.global_depth_ := rfl
  have hTsz : T.bucket_size_ = t.bucket_size_ := rfl
  have hTdir : T.dir_
      = reassign bid t.buckets.length (t.buckets.length + 1) s1 s 0 t.dir_ := rfl
  have hTdlen : T.dir_.length = t.dir_.length := by
    rw [hTdir]
    exact reassign_length _ _ _ _ _ t.dir_ 0
  have hTBlen : T.buckets.length = t.buckets.length + 2 := by
    show ((t.buckets.set bid _) ++ _).length = _
    simp
  have hBAlo : T.bucketAt t.buckets.length
      = ⟨t.bucket_size_, dold + 1,
          (t.bucketAt bid).list_.filter (fun kv => (s1 &&& hash kv.1) != s)⟩ := by
    show ((t.buckets.set bid _) ++ _).getD _ default = _
    rw [getD_set_append hblt]
    rw [if_pos rfl, hRD]
    simp
  have hBAhi : T.bucketAt (t.buckets.length + 1)
      = ⟨t.bucket_size_, dold + 1,
          (t.bucketAt bid).list_.filter (fun kv => (s1 &&& hash kv.1) == s)⟩ := by
    show ((t.buckets.set bid _) ++ _).getD _ default = _
    rw [getD_set_append hblt]
    rw [if_neg (by omega), if_pos rfl, hRD]
    simp
  have hBAold : ∀ c, c < t.buckets.length → c ≠ bid → T.bucketAt c = t.bucketAt c := by
    intro c hc hcb
    show ((t.buckets.set bid _) ++ _).getD _ default = _
    rw [getD_set_append hblt]
    rw [if_neg (by omega), if_neg (by omega), if_neg hcb]
    rfl
  have hgd : ∀ j, j < t.dir_.length → T.dir_.getD j 0 =
      if t.dir_.getD j 0 = bid then
        (if j % 2 ^ (dold + 1) = idx % 2 ^ (dold + 1) then t.buckets.length + 1
          else t.buckets.length)
      else t.dir_.getD j 0 := by
    intro j hj
    rw [hTdir, reassign_getD bid _ _ s1 s t.dir_ 0 j hj, if_bne,
      Nat.zero_add, hs1 j, hs]
  have hidxp : idx % 2 ^ dold = p := (hiff idx hidxlt).mp hbid
  have hqlt : idx % 2 ^ (dold + 1) < 2 ^ (dold + 1) := Nat.mod_lt _ (Nat.two_pow_pos _)
  have hqmod : idx % 2 ^ (dold + 1) % 2 ^ dold = p := by
    rw [mod_pow_mod (Nat.le_succ dold)]
    exact hidxp
  obtain ⟨plo, hploq, hplolt, hplomod, hdich⟩ :
      ∃ plo, plo ≠ idx % 2 ^ (dold + 1) ∧ plo < 2 ^ (dold + 1) ∧
        plo % 2 ^ dold = p ∧
        (∀ r, r < 2 ^ (dold + 1) → r % 2 ^ dold = p →
          r = idx % 2 ^ (dold + 1) ∨ r = plo) := by
    rcases two_residues hp hqlt hqmod with h | h
    · refine ⟨p + 2 ^ dold, by omega, by omega, ?_, ?_⟩
      · rw [Nat.add_mod_right]
        exact Nat.mod_eq_of_lt hp
      · intro r hr hrm
        rcases two_residues hp hr hrm with h2 | h2
        · left
          omega
        · right
          exact h2
    · refine ⟨p, by omega, by omega, Nat.mod_eq_of_lt hp, ?_⟩
      intro r hr hrm
      rcases two_residues hp hr hrm with h2 | h2
      · right
        exact h2
      · left
        omega
  have hmemT : ∀ c ∈ T.dir_, c = t.buckets.length ∨ c = t.buckets.length + 1
      ∨ (c ∈ t.dir_ ∧ c ≠ bid) := by
    intro c hc
    obtain ⟨j, hj, hcj⟩ := mem_iff_getD.mp hc
    rw [hTdlen] at hj
    rw [hgd j hj] at hcj
    by_cases h1 : t.dir_.getD j 0 = bid
    · rw [if_pos h1] at hcj
      by_cases h2 : j % 2 ^ (dold + 1) = idx % 2 ^ (dold + 1)
      · rw [if_pos h2] at hcj
        right
        left
        omega
      · rw [if_neg h2] at hcj
        left
        omega
    · rw [if_neg h1] at hcj
      right
      right
      refine ⟨hcj ▸ getD_mem hj, ?_⟩
      rw [← hcj]
      exact h1
  have hiffHI : ∀ j, j < t.dir_.length →
      (T.dir_.getD j 0 = t.buckets.length + 1
        ↔ j % 2 ^ (dold + 1) = idx % 2 ^ (dold + 1)) := by
    intro j hj
    rw [hgd j hj]
    by_cases h1 : t.dir_.getD j 0 = bid
    · rw [if_pos h1]
      by_cases h2 : j % 2 ^ (dold + 1) = idx % 2 ^ (dold + 1)
      · rw [if_pos h2]
        simp [h2]
      · rw [if_neg h2]
        constructor
        · intro hx
          exact absurd hx (by omega)
        · intro hx
          exact absurd hx h2
    · rw [if_neg h1]
      have hold : t.dir_.getD j 0 < t.buckets.length := hI.inrange _ (getD_mem hj)
      constructor
      · intro hx
        exact absurd hx (by omega)
      · intro hx
        exfalso
        apply h1
        apply (hiff j hj).mpr
        rw [← mod_pow_mod (Nat.le_succ dold), hx]
        exact hqmod
  have hiffLO : ∀ j, j < t.dir_.length →
      (T.dir_.getD j 0 = t.buckets.length ↔ j % 2 ^ (dold + 1) = plo) := by
    intro j hj
    rw [hgd j hj]
    by_cases h1 : t.dir_.getD j 0 = bid
    · rw [if_pos h1]
      have hjdold : j % 2 ^ dold = p := (hiff j hj).mp h1
      by_cases h2 : j % 2 ^ (dold + 1) = idx % 2 ^ (dold + 1)
      · rw [if_pos h2]
        constructor
        · intro hx
          exact absurd hx (by omega)
        · intro hx
          exact absurd (hx.symm.trans h2) hploq
      · rw [if_neg h2]
        constructor
        · intro _
          have hjm : j % 2 ^ (dold + 1) % 2 ^ dold = p := by
            rw [mod_pow_mod (Nat.le_succ dold)]
            exact hjdold
          rcases hdich _ (Nat.mod_lt _ (Nat.two_pow_pos _)) hjm with h3 | h3
          · exact absurd h3 h2
          · exact h3
        · intro _
          rfl
    · rw [if_neg h1]
      have hold : t.dir_.getD j 0 < t.buckets.length := hI.inrange _ (getD_mem hj)
      constructor
      · intro hx
        exact absurd hx (by omega)
      · intro hx
        exfalso
        apply h1
        apply (hiff j hj).mpr
        rw [← mod_pow_mod (Nat.le_succ dold), hx]
        exact hplomod
  have hplaceHI : ∀ a ∈ ((t.bucketAt bid).list_.filter
      (fun kv => (s1 &&& hash kv.1) == s)).map Prod.fst,
      hash a % 2 ^ (dold + 1) = idx % 2 ^ (dold + 1) := by
    intro a ha
    obtain ⟨kv, hkv, rfl⟩ := List.mem_map.mp ha
    have h2 := (List.mem_filter.mp hkv).2
    have h3 : s1 &&& hash kv.1 = s := by simpa using h2
    rw [← hs, ← hs1h (hash kv.1)]
    exact h3
  have hplaceLO : ∀ a ∈ ((t.bucketAt bid).list_.filter
      (fun kv => (s1 &&& hash kv.1) != s)).map Prod.fst,
      hash a % 2 ^ (dold + 1) = plo := by
    intro a ha
    obtain ⟨kv, hkv, rfl⟩ := List.mem_map.mp ha
    have hm := (List.mem_filter.mp hkv).1
    have h2 := (List.mem_filter.mp hkv).2
    have h3 : hash kv.1 % 2 ^ (dold + 1) ≠ idx % 2 ^ (dold + 1) := by
      rw [← hs, ← hs1h (hash kv.1)]
      simpa using h2
    have h4 : hash kv.1 % 2 ^ dold = p :=
      hplace kv.1 (List.mem_map.mpr ⟨kv, hm, rfl⟩)
    have h5 : hash kv.1 % 2 ^ (dold + 1) % 2 ^ dold = p := by
      rw [mod_pow_mod (Nat.le_succ dold)]
      exact h4
    rcases hdich _ (Nat.mod_lt _ (Nat.two_pow_pos _)) h5 with h6 | h6
    · exact absurd h6 h3
    · exact h6
  have hndLO : (((t.bucketAt bid).list_.filter
      (fun kv => (s1 &&& hash kv.1) != s)).map Prod.fst).Nodup :=
    hndb.sublist ((List.filter_sublist _).map Prod.fst)
  have hndHI : (((t.bucketAt bid).list_.filter
      (fun kv => (s1 &&& hash kv.1) == s)).map Prod.fst).Nodup :=
    hndb.sublist ((List.filter_sublist _).map Prod.fst)
  have hfind : ∀ k1 v0 : Nat, Find hash T k1 v0 = Find hash t k1 v0 := by
    intro k1 v0
    have hj1 : IndexOf hash t k1 < t.dir_.length := hI.idx_lt k1
    show (T.bucketAt (T.dir_.getD (IndexOf hash t k1) 0)).find k1 v0
      = (t.bucketAt (t.dir_.getD (IndexOf hash t k1) 0)).find k1 v0
    rw [hgd _ hj1]
    by_cases h1 : t.dir_.getD (IndexOf hash t k1) 0 = bid
    · rw [if_pos h1, h1]
      have hk1d : IndexOf hash t k1 % 2 ^ (dold + 1)
          = hash k1 % 2 ^ (dold + 1) := by
        rw [IndexOf_eq_mod]
        exact mod_pow_mod hdg
      by_cases h2 : IndexOf hash t k1 % 2 ^ (dold + 1) = idx % 2 ^ (dold + 1)
      · rw [if_pos h2, hBAhi]
        show Bucket.findAux ((t.bucketAt bid).list_.filter
            (fun kv => (s1 &&& hash kv.1) == s)) k1 v0
          = Bucket.findAux (t.bucketAt bid).list_ k1 v0
        apply Bucket.findAux_filter_keep
        intro kv _ he
        rw [he]
        have h3 : s1 &&& hash k1 = s := by
          rw [hs1h, hs, ← hk1d]
          exact h2
        simp [h3]
      · rw [if_neg h2, hBAlo]
        show Bucket.findAux ((t.bucketAt bid).list_.filter
            (fun kv => (s1 &&& hash kv.1) != s)) k1 v0
          = Bucket.findAux (t.bucketAt bid).list_ k1 v0
        apply Bucket.findAux_filter_keep
        intro kv _ he
        rw [he]
        have h3 : s1 &&& hash k1 ≠ s := by
          rw [hs1h, hs, ← hk1d]
          exact h2
        simp [h3]
    · rw [if_neg h1]
      have hc1lt : t.dir_.getD (IndexOf hash t k1) 0 < t.buckets.length :=
        hI.inrange _ (getD_mem hj1)
      rw [hBAold _ hc1lt h1]
  refine ⟨?_, hfind⟩
  constructor
  · rw [hTdlen, hTg]
    exact hI.dirlen
  · intro c hc
    rw [hTBlen]
    rcases hmemT c hc with h | h | ⟨hcd, hcb⟩
    · omega
    · omega
    · have := hI.inrange c hcd
      omega
  · intro c hc
    rcases hmemT c hc with h | h | ⟨hcd, hcb⟩
    · subst h
      refine ⟨plo, ?_, ?_, ?_, ?_⟩ <;> rw [hBAlo]
      · exact hplolt
      · rw [hTg]
        exact hdg
      · intro j hj
        rw [hTdlen] at hj
        exact hiffLO j hj
      · exact hplaceLO
    · subst h
      refine ⟨idx % 2 ^ (dold + 1), ?_, ?_, ?_, ?_⟩ <;> rw [hBAhi]
      · exact hqlt
      · rw [hTg]
        exact hdg
      · intro j hj
        rw [hTdlen] at hj
        exact hiffHI j hj
      · exact hplaceHI
    · obtain ⟨p', hp', hdle', hiff', hplace'⟩ := hI.cover c hcd
      have hclt : c < t.buckets.length := hI.inrange c hcd
      have hBc : T.bucketAt c = t.bucketAt c := hBAold c hclt hcb
      refine ⟨p', ?_, ?_, ?_, ?_⟩ <;> rw [hBc]
      · exact hp'
      · rw [hTg]
        exact hdle'
      · intro j hj
        rw [hTdlen] at hj
        rw [hgd j hj]
        by_cases h1 : t.dir_.getD j 0 = bid
        · rw [if_pos h1]
          constructor
          · intro hx
            by_cases h2 : j % 2 ^ (dold + 1) = idx % 2 ^ (dold + 1)
            · rw [if_pos h2] at hx
              exact absurd hx (by omega)
            · rw [if_neg h2] at hx
              exact absurd hx (by omega)
          · intro hx
            exact absurd (((hiff' j hj).mpr hx).symm.trans h1) hcb
        · rw [if_neg h1]
          exact hiff' j hj
      · exact hplace'
  · intro c hc
    rcases hmemT c hc with h | h | ⟨hcd, hcb⟩
    · subst h
      rw [hBAlo]
      exact hndLO
    · subst h
      rw [hBAhi]
      exact hndHI
    · rw [hBAold c (hI.inrange c hcd) hcb]
      exact hI.keysnd c hcd
  · intro c hc
    rcases hmemT c hc with h | h | ⟨hcd, hcb⟩
    · subst h
      rw [hBAlo, hTsz]
      exact le_trans (List.length_filter_le _ _) hcap
    · subst h
      rw [hBAhi, hTsz]
      exact le_trans (List.length_filter_le _ _) hcap
    · rw [hBAold c (hI.inrange c hcd) hcb, hTsz]
      exact hI.caps c hcd
  · intro c hc
    rcases hmemT c hc with h | h | ⟨hcd, hcb⟩
    · subst h
      rw [hBAlo, hTsz]
    · subst h
      rw [hBAhi, hTsz]
    · rw [hBAold c (hI.inrange c hcd) hcb, hTsz]
      exact hI.sizes c hcd

theorem Inv.split {hash : Nat → Nat} {t : ExtendibleHashTable} {key : Nat}
    (hI : Inv hash t)
    (hd : (t.bucketAt (t.dir_.getD (IndexOf hash t key) 0)).depth_ < t.global_depth_) :
    Inv hash (SplitBucket hash t key) := by
  have h := hI.split_aux (hI.idx_lt key) rfl rfl hd
    (fun x => mask_eq_mod x _) (fun x => mask_eq_mod' _ x) (mask_eq_mod' _ _)
  exact h.1

/-- A split does not change the observable result of any lookup. -/
theorem Find_split {hash : Nat → Nat} {t : ExtendibleHashTable} {key : Nat}
    (hI : Inv hash t)
    (hd : (t.bucketAt (t.dir_.getD (IndexOf hash t key) 0)).depth_ < t.global_depth_)
    (k1 v0 : Nat) :
    Find hash (SplitBucket hash t key) k1 v0 = Find hash t k1 v0 := by
  have h := hI.split_aux (hI.idx_lt key) rfl rfl hd
    (fun x => mask_eq_mod x _) (fun x => mask_eq_mod' _ x) (mask_eq_mod' _ _)
  exact h.2 k1 v0

theorem Inv.grow {hash : Nat → Nat} {t : ExtendibleHashTable} (hI : Inv hash t) :
    Inv hash (DoubleDirectory { t with global_depth_ := t.global_depth_ + 1 }) := by
  set T := DoubleDirectory { t with global_depth_ := t.global_depth_ + 1 } with hT
  have hTdir : T.dir_ = t.dir_ ++ t.dir_ := rfl
  have hTg : T.global_depth_ = t.global_depth_ + 1 := rfl
  have hTB : ∀ c, T.bucketAt c = t.bucketAt c := fun _ => rfl
  have hlen2 : T.dir_.length = 2 * t.dir_.length := by
    rw [hTdir, List.length_append]
    omega
  have hmm : ∀ c, c ∈ T.dir_ ↔ c ∈ t.dir_ := by
    intro c
    rw [hTdir, List.mem_append, or_self]
  have hgd : ∀ j < T.dir_.length, T.dir_.getD j 0 = t.dir_.getD (j % t.dir_.length) 0 := by
    intro j hj
    rw [hTdir]
    exact getD_append_self (by omega)
  constructor
  · rw [hlen2, hI.dirlen, hTg, pow_succ]
    omega
  · intro c hc
    exact hI.inrange c ((hmm c).mp hc)
  · intro c hc
    obtain ⟨p, hp, hdle, hiff, hplace⟩ := hI.cover c ((hmm c).mp hc)
    refine ⟨p, ?_, ?_, ?_, ?_⟩ <;> rw [hTB c]
    · exact hp
    · rw [hTg]
      omega
    · intro j hj
      rw [hgd j hj]
      have hjlt : j % t.dir_.length < t.dir_.length := by
        refine Nat.mod_lt _ ?_
        rw [hI.dirlen]
        exact Nat.two_pow_pos _
      rw [hiff _ hjlt, hI.dirlen, mod_pow_mod hdle]
    · exact hplace
  · intro c hc
    rw [hTB c]
    exact hI.keysnd c ((hmm c).mp hc)
  · intro c hc
    rw [hTB c]
    exact hI.caps c ((hmm c).mp hc)
  · intro c hc
    rw [hTB c]
    exact hI.sizes c ((hmm c).mp hc)

/-- After growing the directory, the key addresses the same bucket. -/
theorem bid_grow (hash : Nat → Nat) {t : ExtendibleHashTable}
    (hdl : t.dir_.length = 2 ^ t.global_depth_) (key : Nat) :
    (DoubleDirectory { t with global_depth_ := t.global_depth_ + 1 }).dir_.getD
      (IndexOf hash (DoubleDirectory { t with global_depth_ := t.global_depth_ + 1 })
        key) 0
      = t.dir_.getD (IndexOf hash t key) 0 := by
  have h1 : (DoubleDirectory { t with global_depth_ := t.global_depth_ + 1 }).dir_
      = t.dir_ ++ t.dir_ := rfl
  have h2 : (DoubleDirectory
      { t with global_depth_ := t.global_depth_ + 1 }).global_depth_
      = t.global_depth_ + 1 := rfl
  rw [h1, IndexOf_eq_mod, IndexOf_eq_mod, h2]
  have h3 : hash key % 2 ^ (t.global_depth_ + 1) < 2 * t.dir_.length := by
    have h0 := Nat.mod_lt (hash key) (Nat.two_pow_pos (t.global_depth_ + 1))
    have h4 : (2:Nat) ^ (t.global_depth_ + 1) = 2 ^ t.global_depth_ * 2 := pow_succ 2 _
    rw [hdl]
    omega
  rw [getD_append_self h3, hdl, mod_pow_mod (Nat.le_succ _)]

theorem Inv.step {hash : Nat → Nat} {t : ExtendibleHashTable} (hI : Inv hash t)
    (key : Nat) : Inv hash (insertStep hash t key) := by
  by_cases hgq : (t.global_depth_
      == (t.bucketAt (t.dir_.getD (IndexOf hash t key) 0)).depth_) = true
  · have heq : insertStep hash t key
        = SplitBucket hash (DoubleDirectory
            { t with global_depth_ := t.global_depth_ + 1 }) key := by
      simp only [insertStep, hgq, if_true]
    rw [heq]
    apply Inv.split hI.grow
    rw [bid_grow hash hI.dirlen key]
    have h2 : t.global_depth_
        = (t.bucketAt (t.dir_.getD (IndexOf hash t key) 0)).depth_ := by
      exact beq_iff_eq.mp hgq
    show (t.bucketAt _).depth_ < t.global_depth_ + 1
    omega
  · have heq : insertStep hash t key = SplitBucket hash t key := by
      simp only [insertStep, hgq, Bool.false_eq_true, if_false]
    rw [heq]
    apply hI.split
    obtain ⟨p, hp, hdle, hiff, hplace⟩ := hI.cover _ (hI.bid_mem key)
    have h2 : t.global_depth_
        ≠ (t.bucketAt (t.dir_.getD (IndexOf hash t key) 0)).depth_ := by
      intro h
      exact hgq (by simp [h])
    omega

theorem Inv.insert {hash : Nat → Nat} {fuel : Nat} {t t' : ExtendibleHashTable}
    {key value : Nat} (hI : Inv hash t)
    (h : Insert hash fuel t key value = some t') : Inv hash t' := by
  induction fuel generalizing t with
  | zero => simp [Insert] at h
  | succ fuel ih =>
      simp only [Insert] at h
      by_cases hr : ((t.bucketAt (t.dir_.getD (IndexOf hash t key) 0)).insert
          key value).1 = true
      · rw [if_pos hr] at h
        obtain rfl := Option.some.inj h
        exact hI.insert_success hr
      · rw [if_neg hr] at h
        exact ih (hI.step key) h

theorem Inv.remove {hash : Nat → Nat} {t : ExtendibleHashTable} (hI : Inv hash t)
    (key : Nat) : Inv hash (Remove hash t key).2 := by
  have h : (Remove hash t key).2 = { t with buckets :=
      (t.buckets.set (t.dir_.getD (IndexOf hash t key) 0)
        ((t.bucketAt (t.dir_.getD (IndexOf hash t key) 0)).remove key).2) } := rfl
  rw [h]
  refine hI.set_addressed rfl rfl ?_ ?_ ?_
  · exact (hI.keysnd _ (hI.bid_mem key)).sublist
      (Bucket.removeAux_map_fst_sublist _ _)
  · exact le_trans (Bucket.removeAux_length_le _ _) (hI.caps _ (hI.bid_mem key))
  · intro a ha
    exact Or.inl ((Bucket.removeAux_map_fst_sublist _ _).subset ha)

theorem Inv.con (hash : Nat → Nat) (cap : Nat) : Inv hash (new cap) := by
  refine ⟨rfl, ?_, ?_, ?_, ?_, ?_⟩
  · intro bid hb
    have hb0 : bid = 0 := List.mem_singleton.mp hb
    rw [hb0]
    exact Nat.zero_lt_one
  · intro bid hb
    have hb0 : bid = 0 := List.mem_singleton.mp hb
    subst hb0
    refine ⟨0, Nat.zero_lt_one, Nat.le_refl 0, ?_, ?_⟩
    · intro j hj
      have hj' : j < 1 := hj
      have hj0 : j = 0 := by omega
      subst hj0
      simp [new, List.getD]
    · intro a ha
      simp [new, bucketAt, List.getD] at ha
  · intro bid hb
    have hb0 : bid = 0 := List.mem_singleton.mp hb
    subst hb0
    simp [new, bucketAt, List.getD]
  · intro bid hb
    have hb0 : bid = 0 := List.mem_singleton.mp hb
    subst hb0
    simp [new, bucketAt, List.getD]
  · intro bid hb
    have hb0 : bid = 0 := List.mem_singleton.mp hb
    subst hb0
    simp [new, bucketAt, List.getD]

theorem Reachable.inv {hash : Nat → Nat} {t : ExtendibleHashTable}
    (h : Reachable hash t) : Inv hash t := by
  induction h with
  | con cap => exact Inv.con hash cap
  | ins key value fuel hR hIns ih => exact ih.insert hIns
  | rem key hR ih => exact ih.remove key

/-- After a successful bucket-level insert, looking the key up through the
updated table returns the inserted value. -/
theorem Find_insert_success {hash : Nat → Nat} {t : ExtendibleHashTable}
    {key value : Nat} (hI : Inv hash t)
    (hr : ((t.bucketAt (t.dir_.getD (IndexOf hash t key) 0)).insert key value).1
      = true) (v0 : Nat) :
    Find hash { t with buckets :=
        (t.buckets.set (t.dir_.getD (IndexOf hash t key) 0)
          ((t.bucketAt (t.dir_.getD (IndexOf hash t key) 0)).insert key value).2) }
      key v0 = (true, value) := by
  have hblt : t.dir_.getD (IndexOf hash t key) 0 < t.buckets.length :=
    hI.inrange _ (hI.bid_mem key)
  show ((t.buckets.set (t.dir_.getD (IndexOf hash t key) 0)
      ((t.bucketAt (t.dir_.getD (IndexOf hash t key) 0)).insert key value).2).getD
      (t.dir_.getD (IndexOf hash t key) 0) default).find key v0 = (true, value)
  rw [getD_set_list hblt]
  rw [if_pos rfl]
  exact Bucket.insert_true_find hr v0

/-- A successful bucket-level insert of `key` leaves lookups of any other
key unchanged. -/
theorem Find_frame_success {hash : Nat → Nat} {t : ExtendibleHashTable}
    {key value k1 : Nat} (hI : Inv hash t) (hne : k1 ≠ key) (v0 : Nat) :
    Find hash { t with buckets :=
        (t.buckets.set (t.dir_.getD (IndexOf hash t key) 0)
          ((t.bucketAt (t.dir_.getD (IndexOf hash t key) 0)).insert key value).2) }
      k1 v0 = Find hash t k1 v0 := by
  have hblt : t.dir_.getD (IndexOf hash t key) 0 < t.buckets.length :=
    hI.inrange _ (hI.bid_mem key)
  show ((t.buckets.set (t.dir_.getD (IndexOf hash t key) 0)
      ((t.bucketAt (t.dir_.getD (IndexOf hash t key) 0)).insert key value).2).getD
      (t.dir_.getD (IndexOf hash t k1) 0) default).find k1 v0
    = (t.bucketAt (t.dir_.getD (IndexOf hash t k1) 0)).find k1 v0
  rw [getD_set_list hblt]
  by_cases hc : t.dir_.getD (IndexOf hash t k1) 0
      = t.dir_.getD (IndexOf hash t key) 0
  · rw [if_pos hc, hc]
    exact Bucket.insert_true_find_other hne v0
  · rw [if_neg hc]
    rfl

/-- Doubling the directory changes the result of no lookup. -/
theorem Find_grow {hash : Nat → Nat} {t : ExtendibleHashTable}
    (hdl : t.dir_.length = 2 ^ t.global_depth_) (k1 v0 : Nat) :
    Find hash (DoubleDirectory { t with global_depth_ := t.global_depth_ + 1 })
      k1 v0 = Find hash t k1 v0 := by
  show ((DoubleDirectory { t with global_depth_ := t.global_depth_ + 1 }).bucketAt
      ((DoubleDirectory { t with global_depth_ := t.global_depth_ + 1 }).dir_.getD
        (IndexOf hash (DoubleDirectory
          { t with global_depth_ := t.global_depth_ + 1 }) k1) 0)).find k1 v0
    = _
  rw [bid_grow hash hdl k1]
  rfl

/-- One grow-and-split iteration of the insert loop changes the result of
no lookup. -/
theorem Find_step {hash : Nat → Nat} {t : ExtendibleHashTable} (hI : Inv hash t)
    (key k1 v0 : Nat) :
    Find hash (insertStep hash t key) k1 v0 = Find hash t k1 v0 := by
  by_cases hgq : (t.global_depth_
      == (t.bucketAt (t.dir_.getD (IndexOf hash t key) 0)).depth_) = true
  · have heq : insertStep hash t key
        = SplitBucket hash (DoubleDirectory
            { t with global_depth_ := t.global_depth_ + 1 }) key := by
      simp only [insertStep, hgq, if_true]
    rw [heq]
    have hd2 : ((DoubleDirectory
        { t with global_depth_ := t.global_depth_ + 1 }).bucketAt
        ((DoubleDirectory { t with global_depth_ := t.global_depth_ + 1 }).dir_.getD
          (IndexOf hash (DoubleDirectory
            { t with global_depth_ := t.global_depth_ + 1 }) key) 0)).depth_
        < (DoubleDirectory
            { t with global_depth_ := t.global_depth_ + 1 }).global_depth_ := by
      rw [bid_grow hash hI.dirlen key]
      have h2 : t.global_depth_
          = (t.bucketAt (t.dir_.getD (IndexOf hash t key) 0)).depth_ := by
        exact beq_iff_eq.mp hgq
      show (t.bucketAt _).depth_ < t.global_depth_ + 1
      omega
    rw [Find_split hI.grow hd2 k1 v0]
    exact Find_grow hI.dirlen k1 v0
  · have heq : insertStep hash t key = SplitBucket hash t key := by
      simp only [insertStep, hgq, Bool.false_eq_true, if_false]
    rw [heq]
    apply Find_split hI
    obtain ⟨p, hp, hdle, hiff, hplace⟩ := hI.cover _ (hI.bid_mem key)
    have h2 : t.global_depth_
        ≠ (t.bucketAt (t.dir_.getD (IndexOf hash t key) 0)).depth_ := by
      intro h
      exact hgq (by simp [h])
    omega

/-- After a terminating `Insert`, the inserted key is found with the
inserted value, whatever the prior contents of the output parameter. -/
theorem Insert_find {hash : Nat → Nat} {fuel : Nat} {t t' : ExtendibleHashTable}
    {key value : Nat} (hI : Inv hash t)
    (h : Insert hash fuel t key value = some t') (v0 : Nat) :
    Find hash t' key v0 = (true, value) := by
  induction fuel generalizing t with
  | zero => simp [Insert] at h
  | succ fuel ih =>
      simp only [Insert] at h
      by_cases hr : ((t.bucketAt (t.dir_.getD (IndexOf hash t key) 0)).insert
          key value).1 = true
      · rw [if_pos hr] at h
        obtain rfl := Option.some.inj h
        exact Find_insert_success hI hr v0
      · rw [if_neg hr] at h
        exact ih (hI.step key) h

/-- A terminating `Insert` of one key changes the result of no lookup of a
different key. -/
theorem Insert_find_frame {hash : Nat → Nat} {fuel : Nat}
    {t t' : ExtendibleHashTable} {key value k1 : Nat} (hI : Inv hash t)
    (hne : k1 ≠ key) (h : Insert hash fuel t key value = some t') (v0 : Nat) :
    Find hash t' k1 v0 = Find hash t k1 v0 := by
  induction fuel generalizing t with
  | zero => simp [Insert] at h
  | succ fuel ih =>
      simp only [Insert] at h
      by_cases hr : ((t.bucketAt (t.dir_.getD (IndexOf hash t key) 0)).insert
          key value).1 = true
      · rw [if_pos hr] at h
        obtain rfl := Option.some.inj h
        exact Find_frame_success hI hne v0
      · rw [if_neg hr] at h
        rw [ih (hI.step key) h]
        exact Find_step hI key k1 v0

/-! The degenerate-clustering loop: under `clusterHash` every key addresses
slot 0, and one grow-and-split iteration started from a `Clustered` state
lands in a `Clustered` state again, so the insert loop never succeeds. -/

theorem clustered_rejects {t : ExtendibleHashTable} (hC : Clustered t) (v : Nat) :
    ((t.bucketAt (t.dir_.getD (IndexOf clusterHash t 1) 0)).insert 1 v).1
      = false := by
  obtain ⟨hsz, hlpos, hba⟩ := hC
  have hidx : IndexOf clusterHash t 1 = 0 := by
    rw [IndexOf_eq_mod]
    rfl
  rw [hidx]
  have hscan : Bucket.insertScan (t.bucketAt (t.dir_.getD 0 0)).list_ 1 v = none := by
    rw [hba]
    rfl
  have hfull : (t.bucketAt (t.dir_.getD 0 0)).isFull = true := by
    rw [hba]
    rfl
  rw [Bucket.insert_eq_reject hscan hfull]

theorem clustered_step {t : ExtendibleHashTable} (hC : Clustered t) :
    Clustered (insertStep clusterHash t 1) := by
  obtain ⟨hsz, hlpos, hba⟩ := hC
  have hidx : IndexOf clusterHash t 1 = 0 := by
    rw [IndexOf_eq_mod]
    rfl
  have hcond : (t.global_depth_
      == (t.bucketAt (t.dir_.getD (IndexOf clusterHash t 1) 0)).depth_) = true := by
    rw [hidx, hba]
    simp
  have hstep : insertStep clusterHash t 1
      = SplitBucket clusterHash (DoubleDirectory
          { t with global_depth_ := t.global_depth_ + 1 }) 1 := by
    simp only [insertStep, hcond, if_true]
  rw [hstep]
  set t1 := DoubleDirectory { t with global_depth_ := t.global_depth_ + 1 } with ht1
  have hsz1 : t1.bucket_size_ = 1 := hsz
  have ht1len : 0 < t1.dir_.length := by
    show 0 < (t.dir_ ++ t.dir_).length
    rw [List.length_append]
    omega
  have hidx1 : IndexOf clusterHash t1 1 = 0 := by
    rw [IndexOf_eq_mod]
    rfl
  have hbid1 : t1.dir_.getD (IndexOf clusterHash t1 1) 0 = t.dir_.getD 0 0 := by
    rw [hidx1]
    show (t.dir_ ++ t.dir_).getD 0 0 = _
    exact List.getD_append _ _ _ _ hlpos
  have ht1ba : t1.bucketAt (t.dir_.getD 0 0) = t.bucketAt (t.dir_.getD 0 0) := rfl
  have hdepth : (t1.bucketAt (t1.dir_.getD (IndexOf clusterHash t1 1) 0)).depth_
      = t.global_depth_ := by
    rw [hbid1, ht1ba, hba]
  have hS : ((1 <<< ((t1.bucketAt
      (t1.dir_.getD (IndexOf clusterHash t1 1) 0)).depth_ + 1)) - 1)
      &&& IndexOf clusterHash t1 1 = 0 := by
    rw [hidx1, Nat.and_zero]
  have hlist : (t1.bucketAt (t1.dir_.getD (IndexOf clusterHash t1 1) 0)).list_
      = [(0, 0)] := by
    rw [hbid1, ht1ba, hba]
  have hred : redistribute clusterHash
      ((1 <<< ((t1.bucketAt
        (t1.dir_.getD (IndexOf clusterHash t1 1) 0)).depth_ + 1)) - 1)
      (((1 <<< ((t1.bucketAt
        (t1.dir_.getD (IndexOf clusterHash t1 1) 0)).depth_ + 1)) - 1)
        &&& IndexOf clusterHash t1 1)
      (t1.bucketAt (t1.dir_.getD (IndexOf clusterHash t1 1) 0)).list_
      ⟨t1.bucket_size_,
        (t1.bucketAt (t1.dir_.getD (IndexOf clusterHash t1 1) 0)).depth_ + 1, []⟩
      ⟨t1.bucket_size_,
        (t1.bucketAt (t1.dir_.getD (IndexOf clusterHash t1 1) 0)).depth_ + 1, []⟩
      = (⟨t1.bucket_size_,
          (t1.bucketAt (t1.dir_.getD (IndexOf clusterHash t1 1) 0)).depth_ + 1, []⟩,
        ⟨t1.bucket_size_,
          (t1.bucketAt (t1.dir_.getD (IndexOf clusterHash t1 1) 0)).depth_ + 1,
          [(0, 0)]⟩) := by
    rw [hS, hlist, hsz1]
    have hch : clusterHash 0 = 0 := rfl
    have hand : ((1 <<< ((t1.bucketAt
        (t1.dir_.getD (IndexOf clusterHash t1 1) 0)).depth_ + 1)) - 1)
        &&& clusterHash 0 = 0 := by
      rw [hch, Nat.and_zero]
    simp only [redistribute, hand, bne_self_eq_false, Bool.false_eq_true, if_false]
    have hins : (Bucket.insert
        ⟨1, (t1.bucketAt (t1.dir_.getD (IndexOf clusterHash t1 1) 0)).depth_ + 1, []⟩
        0 0)
        = (true, ⟨1,
            (t1.bucketAt (t1.dir_.getD (IndexOf clusterHash t1 1) 0)).depth_ + 1,
            [(0, 0)]⟩) := by
      have hsc0 : Bucket.insertScan
          ((⟨1, (t1.bucketAt (t1.dir_.getD (IndexOf clusterHash t1 1) 0)).depth_ + 1,
            []⟩ : Bucket)).list_ 0 0 = none := rfl
      have hfl0 : (⟨1,
          (t1.bucketAt (t1.dir_.getD (IndexOf clusterHash t1 1) 0)).depth_ + 1,
          []⟩ : Bucket).isFull = false := rfl
      rw [Bucket.insert_eq_append hsc0 hfl0]
      rfl
    rw [hins]
  refine ⟨hsz, ?_, ?_⟩
  · show 0 < (reassign (t1.dir_.getD (IndexOf clusterHash t1 1) 0)
      t1.buckets.length (t1.buckets.length + 1) _ _ 0 t1.dir_).length
    rw [reassign_length]
    exact ht1len
  · have hs0 : (SplitBucket clusterHash t1 1).dir_.getD 0 0
        = t1.buckets.length + 1 := by
      have h1 : (SplitBucket clusterHash t1 1).dir_
          = reassign (t1.dir_.getD (IndexOf clusterHash t1 1) 0)
              t1.buckets.length (t1.buckets.length + 1)
              ((1 <<< ((t1.bucketAt
                (t1.dir_.getD (IndexOf clusterHash t1 1) 0)).depth_ + 1)) - 1)
              (((1 <<< ((t1.bucketAt
                (t1.dir_.getD (IndexOf clusterHash t1 1) 0)).depth_ + 1)) - 1)
                &&& IndexOf clusterHash t1 1)
              0 t1.dir_ := rfl
      rw [h1, reassign_getD _ _ _ _ _ t1.dir_ 0 0 ht1len]
      have hc : t1.dir_.getD 0 0 = t1.dir_.getD (IndexOf clusterHash t1 1) 0 := by
        rw [hidx1]
      rw [if_pos hc, Nat.zero_add, Nat.zero_and, hS]
      rfl
    rw [hs0]
    have hs2 : (SplitBucket clusterHash t1 1).bucketAt (t1.buckets.length + 1)
        = ⟨t1.bucket_size_,
            (t1.bucketAt (t1.dir_.getD (IndexOf clusterHash t1 1) 0)).depth_ + 1,
            [(0, 0)]⟩ := by
      show ((t1.buckets.set (t1.dir_.getD (IndexOf clusterHash t1 1) 0) _)
          ++ [_, _]).getD (t1.buckets.length + 1) default = _
      rw [getD_set_append_snd, hred]
    rw [hs2, hsz1, hdepth]
    rfl

theorem clustered_none {t : ExtendibleHashTable} (hC : Clustered t) :
    ∀ fuel v, Insert clusterHash fuel t 1 v = none := by
  intro fuel
  induction fuel generalizing t with
  | zero => intro v; rfl
  | succ fuel ih =>
      intro v
      simp only [Insert]
      rw [if_neg (by rw [clustered_rejects hC v]; exact Bool.false_ne_true)]
      exact ih (clustered_step hC) v

/-! Reachability of the concrete example states. -/

theorem exampleT1_reachable : Reachable (fun a => a) exampleT1 :=
  Reachable.ins 0 100 10 (Reachable.con 2) (by decide)

theorem exampleT2_reachable : Reachable (fun a => a) exampleT2 :=
  Reachable.ins 1 101 10 exampleT1_reachable (by decide)

theorem exampleT3_reachable : Reachable (fun a => a) exampleT3 :=
  Reachable.ins 2 102 10 exampleT2_reachable (by decide)

theorem exampleT4_reachable : Reachable (fun a => a) exampleT4 :=
  Reachable.ins 3 103 10 exampleT3_reachable (by decide)

/-! The claims. -/

/-- C1: in every reachable state, if `insert(k, v)` terminates then a
subsequent `find(k)` reports the key present with value `v`, whatever the
prior contents of the output parameter. -/
theorem claim_c1_round_trip {hash : Nat → Nat} {t t' : ExtendibleHashTable}
    {k v fuel : Nat} (hR : Reachable hash t)
    (hterm : Insert hash fuel t k v = some t') (v0 : Nat) :
    Find hash t' k v0 = (true, v) :=
  Insert_find hR.inv hterm v0

theorem claim_c1_round_trip_witness :
    Insert (fun a => a) 1 (new 2) 3 7
        = some ⟨0, 2, 1, [0], [⟨2, 0, [(3, 7)]⟩]⟩
      ∧ Find (fun a => a) (⟨0, 2, 1, [0], [⟨2, 0, [(3, 7)]⟩]⟩ : ExtendibleHashTable)
          3 0 = (true, 7) := by
  refine ⟨by decide, ?_⟩
  exact claim_c1_round_trip (Reachable.con 2)
    (show Insert (fun a => a) 1 (new 2) 3 7
      = some ⟨0, 2, 1, [0], [⟨2, 0, [(3, 7)]⟩]⟩ by decide) 0

/-- C2: after construction and after every completed public operation,
every bucket referenced by at least one directory slot is referenced by
exactly `2 ^ (globalDepth - localDepth)` slots. -/
theorem claim_c2_coverage {hash : Nat → Nat} {t : ExtendibleHashTable}
    (hR : Reachable hash t) :
    ∀ bid ∈ t.dir_, t.dir_.count bid
      = 2 ^ (t.GetGlobalDepth - (t.bucketAt bid).depth_) := by
  intro bid hmem
  have hI := hR.inv
  obtain ⟨p, hp, hdle, hiff, hplace⟩ := hI.cover bid hmem
  rw [count_eq_countP_getD]
  have hcong : ∀ j ∈ List.range t.dir_.length,
      ((fun i => t.dir_.getD i 0 == bid) j = true
        ↔ (fun j => j % 2 ^ (t.bucketAt bid).depth_ == p) j = true) := by
    intro j hj
    simp only [List.mem_range] at hj
    simp only [beq_iff_eq]
    exact hiff j hj
  rw [List.countP_congr hcong, hI.dirlen]
  exact countP_range_mod_pow hdle hp

theorem claim_c2_coverage_witness :
    exampleT4.dir_.count 2
      = 2 ^ (exampleT4.GetGlobalDepth - (exampleT4.bucketAt 2).depth_) :=
  claim_c2_coverage exampleT4_reachable 2 (by decide)

/-- C3: the code has no depth bound: under a hash on which all keys
collide, with bucket capacity 1, the second insert never terminates (the
loop body never succeeds, for any amount of fuel), instead of failing with
a defined `DepthExhausted` error.  The first conjunct pins down the state
reached by the first insert. -/
theorem claim_c3_degenerate_clustering :
    Insert clusterHash 1 (new 1) 0 0 = some clusterT1
    ∧ ∀ fuel v, Insert clusterHash fuel clusterT1 1 v = none := by
  refine ⟨by decide, ?_⟩
  exact clustered_none ⟨rfl, by decide, rfl⟩

/-- C4: splitting the (full) bucket addressed by `k` redistributes its
entries losslessly between the two fresh buckets: `hiBucket` receives
exactly the entries whose hash matches the address prefix under the
incremented-depth mask, `loBucket` the others; nothing is dropped and
nothing is duplicated. -/
theorem claim_c4_split_partition {hash : Nat → Nat} {t : ExtendibleHashTable}
    {k d mask pre : Nat} {B loB hiB : Bucket}
    (hB : B = t.bucketAt (t.dir_.getD (IndexOf hash t k) 0))
    (hd : d = B.depth_ + 1)
    (hmask : mask = (1 <<< d) - 1)
    (hpre : pre = mask &&& IndexOf hash t k)
    (hlo : loB = (SplitBucket hash t k).bucketAt t.buckets.length)
    (hhi : hiB = (SplitBucket hash t k).bucketAt (t.buckets.length + 1))
    (hnd : (B.list_.map Prod.fst).Nodup)
    (hcap : B.list_.length ≤ t.bucket_size_) :
    hiB.list_ = B.list_.filter (fun kv => (mask &&& hash kv.1) == pre)
    ∧ loB.list_ = B.list_.filter (fun kv => (mask &&& hash kv.1) != pre)
    ∧ (loB.list_ ++ hiB.list_).Perm B.list_
    ∧ ∀ kv ∈ B.list_,
        ((mask &&& hash kv.1) = pre → kv ∈ hiB.list_ ∧ kv ∉ loB.list_)
        ∧ ((mask &&& hash kv.1) ≠ pre → kv ∈ loB.list_ ∧ kv ∉ hiB.list_) := by
  subst hlo hhi hpre hmask hd hB
  have hRD := redistribute_spec hash ((1 <<< ((t.bucketAt (t.dir_.getD (IndexOf hash t k) 0)).depth_ + 1)) - 1) (((1 <<< ((t.bucketAt (t.dir_.getD (IndexOf hash t k) 0)).depth_ + 1)) - 1) &&& IndexOf hash t k)
      (t.bucketAt (t.dir_.getD (IndexOf hash t k) 0)).list_ (⟨t.bucket_size_, (t.bucketAt (t.dir_.getD (IndexOf hash t k) 0)).depth_ + 1, []⟩ : Bucket) (⟨t.bucket_size_, (t.bucketAt (t.dir_.getD (IndexOf hash t k) 0)).depth_ + 1, []⟩ : Bucket)
      hnd (by simp) (by simp)
      (by simpa using le_trans (List.length_filter_le _ _) hcap)
      (by simpa using le_trans (List.length_filter_le _ _) hcap)
  have hhiB : (SplitBucket hash t k).bucketAt (t.buckets.length + 1)
      = (redistribute hash ((1 <<< ((t.bucketAt (t.dir_.getD (IndexOf hash t k) 0)).depth_ + 1)) - 1) (((1 <<< ((t.bucketAt (t.dir_.getD (IndexOf hash t k) 0)).depth_ + 1)) - 1) &&& IndexOf hash t k) (t.bucketAt (t.dir_.getD (IndexOf hash t k) 0)).list_ (⟨t.bucket_size_, (t.bucketAt (t.dir_.getD (IndexOf hash t k) 0)).depth_ + 1, []⟩ : Bucket) (⟨t.bucket_size_, (t.bucketAt (t.dir_.getD (IndexOf hash t k) 0)).depth_ + 1, []⟩ : Bucket)).2 :=
    getD_set_append_snd _ _ _ _ _
  have hloB : (SplitBucket hash t k).bucketAt t.buckets.length
      = (redistribute hash ((1 <<< ((t.bucketAt (t.dir_.getD (IndexOf hash t k) 0)).depth_ + 1)) - 1) (((1 <<< ((t.bucketAt (t.dir_.getD (IndexOf hash t k) 0)).depth_ + 1)) - 1) &&& IndexOf hash t k) (t.bucketAt (t.dir_.getD (IndexOf hash t k) 0)).list_ (⟨t.bucket_size_, (t.bucketAt (t.dir_.getD (IndexOf hash t k) 0)).depth_ + 1, []⟩ : Bucket) (⟨t.bucket_size_, (t.bucketAt (t.dir_.getD (IndexOf hash t k) 0)).depth_ + 1, []⟩ : Bucket)).1 :=
    getD_set_append_fst _ _ _ _ _
  have hhiL : ((SplitBucket hash t k).bucketAt (t.buckets.length + 1)).list_
      = (t.bucketAt (t.dir_.getD (IndexOf hash t k) 0)).list_.filter (fun kv => (((1 <<< ((t.bucketAt (t.dir_.getD (IndexOf hash t k) 0)).depth_ + 1)) - 1) &&& hash kv.1) == (((1 <<< ((t.bucketAt (t.dir_.getD (IndexOf hash t k) 0)).depth_ + 1)) - 1) &&& IndexOf hash t k)) := by
    rw [hhiB, hRD]
    simp
  have hloL : ((SplitBucket hash t k).bucketAt t.buckets.length).list_
      = (t.bucketAt (t.dir_.getD (IndexOf hash t k) 0)).list_.filter (fun kv => (((1 <<< ((t.bucketAt (t.dir_.getD (IndexOf hash t k) 0)).depth_ + 1)) - 1) &&& hash kv.1) != (((1 <<< ((t.bucketAt (t.dir_.getD (IndexOf hash t k) 0)).depth_ + 1)) - 1) &&& IndexOf hash t k)) := by
    rw [hloB, hRD]
    simp
  refine ⟨hhiL, hloL, ?_, ?_⟩
  · rw [hhiL, hloL]
    have hperm := List.filter_append_perm (fun kv => (((1 <<< ((t.bucketAt (t.dir_.getD (IndexOf hash t k) 0)).depth_ + 1)) - 1) &&& hash kv.1) == (((1 <<< ((t.bucketAt (t.dir_.getD (IndexOf hash t k) 0)).depth_ + 1)) - 1) &&& IndexOf hash t k)) (t.bucketAt (t.dir_.getD (IndexOf hash t k) 0)).list_
    exact List.perm_append_comm.trans hperm
  · intro kv hm
    rw [hhiL, hloL]
    constructor
    · intro hpr
      constructor
      · refine List.mem_filter.mpr ⟨hm, ?_⟩
        simp only [beq_iff_eq]
        exact hpr
      · intro hin
        have h2 := (List.mem_filter.mp hin).2
        simp only [bne_iff_ne, ne_eq] at h2
        exact h2 hpr
    · intro hpr
      constructor
      · refine List.mem_filter.mpr ⟨hm, ?_⟩
        simp only [bne_iff_ne, ne_eq]
        exact hpr
      · intro hin
        have h2 := (List.mem_filter.mp hin).2
        simp only [beq_iff_eq] at h2
        exact hpr h2

theorem claim_c4_split_partition_witness :
    (((SplitBucket (fun a => a) exampleFull 2).bucketAt 1).list_
        ++ ((SplitBucket (fun a => a) exampleFull 2).bucketAt 2).list_).Perm
      (exampleFull.bucketAt
        (exampleFull.dir_.getD (IndexOf (fun a => a) exampleFull 2) 0)).list_ :=
  (@claim_c4_split_partition (fun a => a) exampleFull 2 _ _ _ _ _ _
    rfl rfl rfl rfl rfl rfl (by decide) (by decide)).2.2.1

/-- C5: after construction and after every completed public operation, the
directory length equals `2 ^ globalDepth`. -/
theorem claim_c5_directory_length {hash : Nat → Nat} {t : ExtendibleHashTable}
    (hR : Reachable hash t) : t.dir_.length = 2 ^ t.GetGlobalDepth :=
  hR.inv.dirlen

theorem claim_c5_directory_length_witness :
    exampleT4.dir_.length = 2 ^ exampleT4.GetGlobalDepth :=
  claim_c5_directory_length exampleT4_reachable

/-- C6: inserting a key that `find` reports present succeeds on the first
loop iteration with any fuel, overwrites the stored value, triggers no
split or directory growth, and leaves the bucket count unchanged. -/
theorem claim_c6_update {hash : Nat → Nat} {t : ExtendibleHashTable} {k : Nat}
    (hpres : (Find hash t k 0).1 = true) (v2 fuel : Nat) :
    ∃ t', Insert hash (fuel + 1) t k v2 = some t'
      ∧ t'.GetNumBuckets = t.GetNumBuckets
      ∧ t'.GetGlobalDepth = t.GetGlobalDepth
      ∧ t'.dir_ = t.dir_
      ∧ t'.buckets.length = t.buckets.length
      ∧ ∀ v0, Find hash t' k v0 = (true, v2) := by
  have hmem : (k, (Find hash t k 0).2)
      ∈ (t.bucketAt (t.dir_.getD (IndexOf hash t k) 0)).list_ :=
    Bucket.findAux_mem hpres
  have hscan : ∃ l', Bucket.insertScan
      (t.bucketAt (t.dir_.getD (IndexOf hash t k) 0)).list_ k v2 = some l' := by
    cases hsc : Bucket.insertScan
        (t.bucketAt (t.dir_.getD (IndexOf hash t k) 0)).list_ k v2 with
    | some l' => exact ⟨l', rfl⟩
    | none => exact absurd rfl (Bucket.insertScan_none_iff.mp hsc _ hmem)
  obtain ⟨l', hsc⟩ := hscan
  have hr : ((t.bucketAt (t.dir_.getD (IndexOf hash t k) 0)).insert k v2).1
      = true := by
    rw [Bucket.insert_eq_overwrite hsc]
  have hblt : t.dir_.getD (IndexOf hash t k) 0 < t.buckets.length := by
    by_contra hge
    push_neg at hge
    have hdef : t.bucketAt (t.dir_.getD (IndexOf hash t k) 0) = default := by
      show t.buckets.getD _ default = default
      exact List.getD_eq_default _ _ hge
    have hfalse : (Find hash t k 0).1 = false := by
      show ((t.bucketAt (t.dir_.getD (IndexOf hash t k) 0)).find k 0).1 = false
      rw [hdef]
      rfl
    rw [hfalse] at hpres
    exact Bool.false_ne_true hpres
  refine ⟨{ t with buckets :=
      (t.buckets.set (t.dir_.getD (IndexOf hash t k) 0)
        ((t.bucketAt (t.dir_.getD (IndexOf hash t k) 0)).insert k v2).2) },
    ?_, rfl, rfl, rfl, by simp, ?_⟩
  · simp only [Insert]
    rw [if_pos hr]
  · intro v0
    show ((t.buckets.set (t.dir_.getD (IndexOf hash t k) 0)
        ((t.bucketAt (t.dir_.getD (IndexOf hash t k) 0)).insert k v2).2).getD
        (t.dir_.getD (IndexOf hash t k) 0) default).find k v0 = (true, v2)
    rw [getD_set_list hblt, if_pos rfl]
    exact Bucket.insert_true_find hr v0

theorem claim_c6_update_witness :
    ∃ t', Insert (fun a => a) 1 exampleSmall 5 42 = some t'
      ∧ t'.GetNumBuckets = exampleSmall.GetNumBuckets
      ∧ t'.GetGlobalDepth = exampleSmall.GetGlobalDepth
      ∧ t'.dir_ = exampleSmall.dir_
      ∧ t'.buckets.length = exampleSmall.buckets.length
      ∧ ∀ v0, Find (fun a => a) t' 5 v0 = (true, 42) :=
  claim_c6_update (by decide) 42 0

/-- C7: after a terminating insert of `k` from a reachable state,
`remove(k)` returns true and a subsequent `find(k)` reports the key absent
with the output parameter untouched; and `remove` of a key that `find`
reports absent returns false and leaves the whole state unchanged. -/
theorem claim_c7_deletion {hash : Nat → Nat} {t : ExtendibleHashTable}
    (hR : Reachable hash t) :
    (∀ k v fuel t', Insert hash fuel t k v = some t' →
      (Remove hash t' k).1 = true
        ∧ ∀ v0, Find hash (Remove hash t' k).2 k v0 = (false, v0))
    ∧ ∀ k, (Find hash t k 0).1 = false → Remove hash t k = (false, t) := by
  constructor
  · intro k v fuel t' hins
    have hIt' : Inv hash t' := hR.inv.insert hins
    have hfind := Insert_find hR.inv hins 0
    have hfind1 : (Find hash t' k 0).1 = true := by rw [hfind]
    constructor
    · exact Bucket.removeAux_true_of_findAux hfind1
    · intro v0
      have hblt : t'.dir_.getD (IndexOf hash t' k) 0 < t'.buckets.length :=
        hIt'.inrange _ (hIt'.bid_mem k)
      show ((t'.buckets.set (t'.dir_.getD (IndexOf hash t' k) 0)
          ((t'.bucketAt (t'.dir_.getD (IndexOf hash t' k) 0)).remove k).2).getD
          (t'.dir_.getD (IndexOf hash t' k) 0) default).find k v0 = (false, v0)
      rw [getD_set_list hblt, if_pos rfl]
      exact Bucket.findAux_false_of_not_mem
        (Bucket.removeAux_not_mem_self (hIt'.keysnd _ (hIt'.bid_mem k))) v0
  · intro k hfalse
    have hnm := Bucket.not_mem_of_findAux_false hfalse
    have hrem := Bucket.removeAux_of_not_mem hnm
    have h3 : Remove hash t k
        = (((t.bucketAt (t.dir_.getD (IndexOf hash t k) 0)).remove k).1,
          { t with buckets :=
            (t.buckets.set (t.dir_.getD (IndexOf hash t k) 0)
              ((t.bucketAt (t.dir_.getD (IndexOf hash t k) 0)).remove k).2) })
        := rfl
    have h4 : (t.bucketAt (t.dir_.getD (IndexOf hash t k) 0)).remove k
        = (false, t.bucketAt (t.dir_.getD (IndexOf hash t k) 0)) := by
      show ((Bucket.removeAux
          (t.bucketAt (t.dir_.getD (IndexOf hash t k) 0)).list_ k).1,
        { t.bucketAt (t.dir_.getD (IndexOf hash t k) 0) with
          list_ := (Bucket.removeAux
            (t.bucketAt (t.dir_.getD (IndexOf hash t k) 0)).list_ k).2 })
        = (false, t.bucketAt (t.dir_.getD (IndexOf hash t k) 0))
      rw [hrem]
    rw [h3, h4]
    have h5 : t.buckets.set (t.dir_.getD (IndexOf hash t k) 0)
        (t.bucketAt (t.dir_.getD (IndexOf hash t k) 0)) = t.buckets := by
      rcases Nat.lt_or_ge (t.dir_.getD (IndexOf hash t k) 0) t.buckets.length
        with h | h
      · exact set_getD_self h
      · exact List.set_eq_of_length_le h
    rw [h5]

theorem claim_c7_deletion_witness :
    (∃ t', Insert (fun a => a) 1 (new 2) 3 7 = some t'
        ∧ (Remove (fun a => a) t' 3).1 = true
        ∧ Find (fun a => a) (Remove (fun a => a) t' 3).2 3 0 = (false, 0))
      ∧ Remove (fun a => a) (new 2) 9 = (false, new 2) := by
  have h := claim_c7_deletion (@Reachable.con (fun a => a) 2)
  exact ⟨⟨_, rfl, (h.1 3 7 1 _ rfl).1, (h.1 3 7 1 _ rfl).2 0⟩, h.2 9 (by decide)⟩

/-- C8 (in-range half): with an in-range index, `localDepth` returns the
local depth of the bucket referenced by that slot; out of range, the
spec-modelled checked accessor reports the `InvalidIndex` failure (the
source performs an unchecked access there). -/
theorem claim_c8_local_depth (t : ExtendibleHashTable) (i : Int) :
    (0 ≤ i → i < (t.dir_.length : Int) →
      t.GetLocalDepthChecked i
        = some (t.bucketAt (t.dir_.getD i.toNat 0)).depth_)
    ∧ ((i < 0 ∨ (t.dir_.length : Int) ≤ i) →
      t.GetLocalDepthChecked i = none) := by
  constructor
  · intro h1 h2
    show (if 0 ≤ i ∧ i < (t.dir_.length : Int) then _ else _) = _
    rw [if_pos ⟨h1, h2⟩]
    rfl
  · intro h
    show (if 0 ≤ i ∧ i < (t.dir_.length : Int) then _ else _) = _
    rw [if_neg ?_]
    rintro ⟨h1, h2⟩
    rcases h with h | h <;> omega

theorem claim_c8_local_depth_witness :
    GetLocalDepthChecked (new 2) 5 = none
      ∧ GetLocalDepthChecked (new 2) 0 = some 0 := by
  constructor
  · exact (claim_c8_local_depth (new 2) 5).2 (Or.inr (by decide))
  · exact (claim_c8_local_depth (new 2) 0).1 (by decide) (by decide)

/-- C9: a terminating insert of `k2` does not change what `find` reports
for a different key `k1` that was stored with value `v1`, even when the
insert grows the directory and splits buckets. -/
theorem claim_c9_insert_frame {hash : Nat → Nat} {t t' : ExtendibleHashTable}
    {k1 k2 v1 v2 v0 fuel : Nat} (hR : Reachable hash t) (hne : k1 ≠ k2)
    (hfound : Find hash t k1 v0 = (true, v1))
    (hins : Insert hash fuel t k2 v2 = some t') :
    Find hash t' k1 v0 = (true, v1) := by
  rw [Insert_find_frame hR.inv hne hins v0]
  exact hfound

theorem claim_c9_insert_frame_witness :
    Insert (fun a => a) 1 exampleT1 1 101 = some exampleT2
      ∧ Find (fun a => a) exampleT2 0 0 = (true, 100) := by
  refine ⟨by decide, ?_⟩
  exact @claim_c9_insert_frame (fun a => a) exampleT1 exampleT2 0 1 100 101 0 1
    exampleT1_reachable (by decide) (by decide) (by decide)

/-- C10: `find` writes the output parameter only on a hit: on a miss it
returns false with the output parameter unchanged, and on a hit the output
parameter receives a value stored for that key in the addressed bucket. -/
theorem claim_c10_find_out_param (hash : Nat → Nat) (t : ExtendibleHashTable)
    (k v0 : Nat) :
    ((Find hash t k v0).1 = false → Find hash t k v0 = (false, v0))
    ∧ ((Find hash t k v0).1 = true →
        (k, (Find hash t k v0).2)
          ∈ (t.bucketAt (t.dir_.getD (IndexOf hash t k) 0)).list_) := by
  constructor
  · intro h
    exact Bucket.findAux_false_snd h
  · intro h
    exact Bucket.findAux_mem h

theorem claim_c10_find_out_param_witness :
    Find (fun a => a) (new 2) 9 77 = (false, 77)
      ∧ (3, (Find (fun a => a) exampleT4 3 0).2)
        ∈ (exampleT4.bucketAt
            (exampleT4.dir_.getD (IndexOf (fun a => a) exampleT4 3) 0)).list_ := by
  constructor
  · exact (claim_c10_find_out_param (fun a => a) (new 2) 9 77).1 (by decide)
  · exact (claim_c10_find_out_param (fun a => a) exampleT4 3 0).2 (by decide)

end ExtendibleHashTable

end ExtHash
